import Mathlib

/-!
Verification of the fstop adaptive-display engine (heat model, tree state,
layout engine, git porcelain parsing) against its specification.

Conventions of the embedding:
* JavaScript numbers are modelled as real numbers (`ℝ`) in the heat-decay
  model, where the exponential `2 ^ x` is genuinely real-valued.  The layout
  engine's weight table is integral and heat values enter it only through
  order comparisons and an additive tiebreaker, so the layout is modelled
  over `ℤ` (its claims hold uniformly in the numeric granularity and this
  keeps the embedding kernel-executable).
* Timestamps are integers (milliseconds).
* Absolute filesystem paths are modelled as lists of path segments relative
  to the watched root (the root itself is `[]`); `dirname` is `List.dropLast`
  and `basename` is the last segment.
* The mutable node graph of `tree-state.mjs` is modelled as a path-indexed
  store (association list): a node object is the store entry at its path,
  and a `children` map is the list of its keys (the child object of key `k`
  under a node at path `p` is the store entry at `p ++ [k]`).
* External collaborators (the `micromatch` glob library, locale-aware string
  comparison, the git status provider) are parameters of the layout context.
-/

namespace Fstop

/-- Normalized filesystem/tree event kinds
(`add`, `addDir`, `change`, `unlink`, `unlinkDir`, `rename`, `childChange`). -/
inductive EventType where
  | add | addDir | change | unlink | unlinkDir | rename | childChange
deriving DecidableEq, Repr

/-- Node kinds: `'file'` or `'directory'`. -/
inductive NodeType where
  | file | directory
deriving DecidableEq, Repr

/-- Path relative to the watched root, as a list of segments. -/
abbrev RPath := List String

/-! ### Heat model (`src/lib/heat.mjs`) -/

namespace Heat

/-- `EVENT_WEIGHTS` table of `heat.mjs`: the entries present in the object.
`childChange` has no entry. -/
def EVENT_WEIGHTS : EventType → Option ℝ
  | .unlink => some 100
  | .unlinkDir => some 100
  | .add => some 80
  | .addDir => some 80
  | .change => some 60
  | .rename => some 40
  | .childChange => none

/-- `EVENT_WEIGHTS.default` fallback weight. -/
def EVENT_WEIGHTS_default : ℝ := 30

/-- `EVENT_WEIGHTS[eventType] || EVENT_WEIGHTS.default`: a missing event type
(or a `null` event) falls back to the default weight. -/
def eventWeight (eventType : Option EventType) : ℝ :=
  (eventType.bind EVENT_WEIGHTS).getD EVENT_WEIGHTS_default

/-- `HEAT_CONFIG.halfLife` (ms). -/
def halfLife : ℝ := 10000

/-- `HEAT_CONFIG.maxHeat`. -/
def maxHeat : ℝ := 100

/-- `HEAT_CONFIG.hotThreshold`. -/
def hotThreshold : ℝ := 20

/-- `HEAT_CONFIG.dirChildSumWeight`. -/
def dirChildSumWeight : ℝ := 0.1

/-- The exponential decay factor `Math.pow(2, -elapsed / halfLife)`. -/
noncomputable def heatDecay (elapsed : ℝ) : ℝ := (2 : ℝ) ^ (-elapsed / halfLife)

/-- `calculateHeat(eventType, eventTime, now)`: `0` when there is no event
time; otherwise `weight * 2 ^ (-(now - eventTime) / halfLife)` clamped to
`maxHeat`.  (JS note: the guard `if (!eventTime) return 0` treats a `null`
event time as unset, modelled by `Option`.) -/
noncomputable def calculateHeat (eventType : Option EventType)
    (eventTime : Option ℝ) (now : ℝ) : ℝ :=
  match eventTime with
  | none => 0
  | some t =>
    let weight := eventWeight eventType
    let elapsed := now - t
    let decay := heatDecay elapsed
    let heat := weight * decay
    min heat maxHeat

/-- `calculateDirHeat(childHeats, ownHeat)`: the directory's own heat when it
has no children, else `min(max(maxChild + 0.1 * sum, ownHeat), maxHeat)`. -/
noncomputable def calculateDirHeat (childHeats : List ℝ) (ownHeat : ℝ) : ℝ :=
  match childHeats with
  | [] => ownHeat
  | h :: t =>
    let maxChildHeat := t.foldl max h
    let sumChildHeat := (h :: t).sum
    let aggregatedHeat := maxChildHeat + sumChildHeat * dirChildSumWeight
    min (max aggregatedHeat ownHeat) maxHeat

end Heat

/-! ### Git status porcelain parsing (`GitStatus` in `src/lib/file-watcher.mjs`) -/

namespace Git

/-- The status classification assigned by `parseStatus`. -/
inductive GitStatusClass where
  | conflict | untracked | both | unstaged | staged
deriving DecidableEq, Repr

/-- Does `sub` occur as a contiguous run inside `l`? -/
def listContainsSub (sub : List Char) : List Char → Bool
  | [] => sub.isPrefixOf []
  | c :: t => sub.isPrefixOf (c :: t) || listContainsSub sub t

/-- `s.includes(sub)` on JavaScript strings. -/
def jsIncludes (s sub : String) : Bool := listContainsSub sub.toList s.toList

/-- Split a character list at every (non-overlapping, leftmost) occurrence of
the non-empty separator `sep`.  The scan consumes at least one character per
step, so `l.length` steps suffice; structural recursion on the step count
keeps the definition kernel-reducible. -/
def jsSplitAux (sep : List Char) : ℕ → List Char → List Char → List (List Char)
  | _, acc, [] => [acc.reverse]
  | 0, acc, l => [acc.reverse ++ l]
  | steps + 1, acc, c :: rest =>
    if sep.isPrefixOf (c :: rest) then
      acc.reverse :: jsSplitAux sep steps [] (rest.drop (sep.length - 1))
    else
      jsSplitAux sep steps (c :: acc) rest

/-- `s.split(sep)` on JavaScript strings, for a non-empty separator (the only
case the source exercises; an empty separator splits into characters in JS
and is not modelled). -/
def jsSplit (s sep : String) : List String :=
  match sep.toList with
  | [] => [s]
  | c :: cs => (jsSplitAux (c :: cs) s.toList.length [] s.toList).map (fun l => ⟨l⟩)

/-- `line[i]` on a JavaScript string: the character, or `undefined` (`none`)
past the end. -/
def jsCharAt (s : String) (i : ℕ) : Option Char := s.toList.get? i

/-- `parseStatus(index, workTree)`: classify a two-character porcelain code.
A `none` character stands for JS `undefined`, which compares unequal to every
character (so `c !== ' '` holds for it, as in the source). -/
def parseStatus (index workTree : Option Char) : Option GitStatusClass :=
  if index = some 'U' ∨ workTree = some 'U' ∨
      (index = some 'A' ∧ workTree = some 'A') ∨
      (index = some 'D' ∧ workTree = some 'D') then
    some .conflict
  else if index = some '?' ∧ workTree = some '?' then
    some .untracked
  else if index ≠ some ' ' ∧ index ≠ some '?' ∧
      workTree ≠ some ' ' ∧ workTree ≠ some '?' then
    some .both
  else if workTree ≠ some ' ' ∧ workTree ≠ some '?' then
    some .unstaged
  else if index ≠ some ' ' ∧ index ≠ some '?' then
    some .staged
  else
    none

/-- `Map.prototype.set`: replace the value in place when the key exists,
otherwise append the new entry. -/
def jsMapSet {α : Type} (m : List (String × α)) (k : String) (v : α) :
    List (String × α) :=
  if m.any (fun e => e.1 = k) then
    m.map (fun e => if e.1 = k then (k, v) else e)
  else
    m ++ [(k, v)]

/-- One iteration of the loop in `fetchFileStatusInto`: skip empty lines,
read the two status characters, take the path after column 3, collapse a
rename `old -> new` to the right-hand path, and classify. -/
def porcelainEntry (rootPath line : String) : Option (String × GitStatusClass) :=
  if line = "" then none
  else
    let indexStatus := jsCharAt line 0
    let workTreeStatus := jsCharAt line 1
    let filePath : String := ⟨line.toList.drop 3⟩
    let actualPath :=
      if jsIncludes filePath " -> " then (jsSplit filePath " -> ").getD 1 ""
      else filePath
    let fullPath := rootPath ++ "/" ++ actualPath
    (parseStatus indexStatus workTreeStatus).map (fun st => (fullPath, st))

/-- The whole loop of `fetchFileStatusInto` over the captured stdout. -/
def fetchFileStatus (rootPath stdout : String) :
    List (String × GitStatusClass) :=
  (jsSplit stdout "\n").foldl
    (fun m line =>
      match porcelainEntry rootPath line with
      | none => m
      | some (k, v) => jsMapSet m k v)
    []

end Git

/-! ### Layout engine (`src/lib/layout.mjs`)

Read-only over the tree, so the tree is modelled as an inductive value
(`LTree`) whose nodes carry the fields the layout reads, with `heat` the
value last written by `calculateAllHeat`.  Weights are exact rationals.
JavaScript's stable `Array.prototype.sort` is modelled by the stable
`List.insertionSort`; a stable sort is observably determined by the
comparator, so the choice of algorithm is immaterial.  Recursion through a
sorted child list is not structural, so the tree recursions take a fuel
argument; the wrappers pass `sizeOf` of the tree, which the fuel never
exhausts. -/

namespace Layout

/-- `filterMatch.type`: `'glob'` or `'text'`. -/
inductive FilterMatchType where
  | glob | text
deriving DecidableEq, Repr

mutual
/-- A tree node as the layout engine sees it.  The `children` map is a
forest; the tree/forest pair is a mutual inductive so that the traversals
below are structural (and hence kernel-executable). -/
inductive LTree where
  | mk (path : RPath) (name : String) (type : NodeType)
      (eventType : Option EventType) (eventTime : Option ℤ) (heat : ℤ)
      (isGhost : Bool) (ghostFadeStep : ℤ) (children : LForest)

inductive LForest where
  | nil
  | cons (head : LTree) (tail : LForest)
end

/-- The children of a forest in insertion order. -/
def LForest.toList : LForest → List LTree
  | .nil => []
  | .cons t rest => t :: rest.toList

/-- Build a forest from a list of children. -/
def LForest.ofList : List LTree → LForest
  | [] => .nil
  | t :: rest => .cons t (LForest.ofList rest)

def LTree.path : LTree → RPath
  | .mk p _ _ _ _ _ _ _ _ => p

def LTree.name : LTree → String
  | .mk _ n _ _ _ _ _ _ _ => n

def LTree.type : LTree → NodeType
  | .mk _ _ t _ _ _ _ _ _ => t

def LTree.eventType : LTree → Option EventType
  | .mk _ _ _ e _ _ _ _ _ => e

def LTree.eventTime : LTree → Option ℤ
  | .mk _ _ _ _ t _ _ _ _ => t

def LTree.heat : LTree → ℤ
  | .mk _ _ _ _ _ h _ _ _ => h

def LTree.isGhost : LTree → Bool
  | .mk _ _ _ _ _ _ g _ _ => g

def LTree.ghostFadeStep : LTree → ℤ
  | .mk _ _ _ _ _ _ _ s _ => s

def LTree.children : LTree → List LTree
  | .mk _ _ _ _ _ _ _ _ c => c.toList

/-- The tree state as the layout engine reads it: the root node and the
paths of the rolling history (`isInHistory` compares paths). -/
structure LayoutTreeState where
  root : LTree
  history : List RPath

/-- External collaborators of the layout engine: the root path string, the
optional git status provider (`getStatus`), the `micromatch.isMatch`
case-insensitive glob matcher, and `String.prototype.localeCompare`. -/
structure LayoutCtx where
  rootPathStr : String
  gitStatus : Option (RPath → NodeType → Option Git.GitStatusClass)
  micromatch : String → String → Bool
  localeCompare : String → String → ℤ

/-- `LAYOUT_CONFIG.headerRows`. -/
def headerRows : ℤ := 2

/-- `LAYOUT_CONFIG.footerRows`. -/
def footerRows : ℤ := 1

/-- `LAYOUT_CONFIG.minRows`. -/
def minRows : ℤ := 5

/-- `calculateAvailableRows(terminalRows)`. -/
def calculateAvailableRows (terminalRows : ℤ) : ℤ :=
  max (terminalRows - headerRows - footerRows) minRows

/-- `isHot` from `heat.mjs` as the layout applies it to stored heat values. -/
def isHot (heat : ℤ) : Bool := decide (20 ≤ heat)

mutual
/-- `getChangeCount(node)`: recursively count hot descendants of a
directory.  The per-child accumulator loop is written as a sum over the
forest. -/
def getChangeCount : LTree → ℕ
  | .mk _ _ ty _ _ _ _ _ children =>
    if ty = .directory then getChangeCountF children else 0

def getChangeCountF : LForest → ℕ
  | .nil => 0
  | .cons c rest =>
    ((if isHot c.heat then 1 else 0) +
      (if c.type = .directory then getChangeCount c else 0)) +
      getChangeCountF rest
end

/-- `s.includes(c)` for a single character (`String.prototype.includes`,
written over the character list so that it evaluates in the kernel). -/
def jsHasChar (s : String) (c : Char) : Bool := s.toList.contains c

/-- `s.toLowerCase()` (over the character list). -/
def jsToLower (s : String) : String := ⟨s.toList.map Char.toLower⟩

/-- `pattern.replace(/^\//, '')`: drop one leading slash. -/
def jsDropLeadSlash (p : String) : String :=
  match p.toList with
  | '/' :: rest => ⟨rest⟩
  | _ => p

/-- `pattern.replace(/\/$/, '')`: drop one trailing slash. -/
def jsDropTrailSlash (p : String) : String :=
  if p.toList.getLast? = some '/' then ⟨p.toList.dropLast⟩ else p

/-- Join path segments with `/`. -/
def joinSlash (ps : List String) : String :=
  ⟨List.intercalate ['/'] (ps.map String.toList)⟩

/-- The relative path used for filter matching:
`node.path.replace(rootPath + '/', '')`.  For a proper descendant this
strips the root prefix (leaving the segments joined by `/`); for the root
itself the replacement finds no occurrence and leaves the absolute root
path string. -/
def relPathStr (ctx : LayoutCtx) (p : RPath) : String :=
  if p = [] then ctx.rootPathStr else joinSlash p

/-- `matchesFilter(node, pattern, rootPath)` (the `micromatch.isMatch`
library calls go through `ctx.micromatch`). -/
def matchesFilter (ctx : LayoutCtx) (name : String) (p : RPath)
    (pattern : String) : Option FilterMatchType :=
  if pattern = "" then none
  else
    let relativePath := relPathStr ctx p
    let isGlob := jsHasChar pattern '*' || jsHasChar pattern '?'
    if jsHasChar pattern '/' then
      let cleanPattern := jsDropLeadSlash pattern
      if !isGlob then
        let dirPattern := jsDropTrailSlash cleanPattern
        if !(jsHasChar dirPattern '/') then
          if jsToLower relativePath = jsToLower dirPattern then some .text
          else none
        else if Git.jsIncludes (jsToLower relativePath)
            (jsToLower dirPattern) then
          some .text
        else none
      else if ctx.micromatch relativePath cleanPattern then some .glob
      else none
    else if isGlob then
      if ctx.micromatch name pattern then some .glob else none
    else if Git.jsIncludes (jsToLower name) (jsToLower pattern) then some .text
    else none

/-- `WEIGHT.base.ROOT`. -/
def WEIGHT_base_ROOT : ℤ := 10000

/-- `WEIGHT.git`. -/
def WEIGHT_git : Git.GitStatusClass → ℤ
  | .conflict => 800
  | .unstaged => 700
  | .both => 650
  | .staged => 600
  | .untracked => 500

/-- `WEIGHT.heat.hot`. -/
def WEIGHT_heat_hot : ℤ := 350

/-- `WEIGHT.type.file`. -/
def WEIGHT_type_file : ℤ := 50

/-- `WEIGHT.type.dir`. -/
def WEIGHT_type_dir : ℤ := 100

/-- `WEIGHT.event[kind] ?? WEIGHT.event.none` (`childChange` has no entry,
so it falls back to `none = 0`). -/
def WEIGHT_event : EventType → ℤ
  | .unlink => 150
  | .unlinkDir => 150
  | .add => 75
  | .addDir => 75
  | .change => 50
  | .rename => 25
  | .childChange => 0

/-- `WEIGHT.context.hasChangedChildren`. -/
def WEIGHT_context_hasChangedChildren : ℤ := 200

/-- `WEIGHT.context.inHistory`. -/
def WEIGHT_context_inHistory : ℤ := 100

/-- `WEIGHT.context.ghost`. -/
def WEIGHT_context_ghost : ℤ := 50

/-- `WEIGHT.filter.match`. -/
def WEIGHT_filter_match : ℤ := 9000

/-- A flattened display line record (`createLayoutNode` plus the fields the
flattener fills in).  The write-only nested `children` copies of the source
are not modelled. -/
structure LayoutNode where
  path : RPath
  name : String
  type : NodeType
  depth : ℕ
  isLast : Bool
  parentContinues : List Bool
  heat : ℤ
  eventType : Option EventType
  eventTime : Option ℤ
  isGhost : Bool
  ghostFadeStep : ℤ
  collapsed : Bool
  childCount : ℕ
  changeCount : ℕ
deriving DecidableEq, Repr

/-- `Math.abs`. -/
def jsAbs (q : ℤ) : ℤ := if q < 0 then -q else q

/-- The child comparator of `flattenTree`: directories first, then presence
of git status, then heat outside the ±5 dead band, then locale name order.
The JS comparator's numeric result matters only through its sign. -/
def childCompare (ctx : LayoutCtx) (a b : LTree) : ℤ :=
  if a.type ≠ b.type then (if a.type = .directory then -1 else 1)
  else
    match ctx.gitStatus with
    | some g =>
      if (g a.path a.type).isSome ≠ (g b.path b.type).isSome then
        (if (g a.path a.type).isSome then -1 else 1)
      else if 5 < jsAbs (a.heat - b.heat) then b.heat - a.heat
      else ctx.localeCompare a.name b.name
    | none =>
      if 5 < jsAbs (a.heat - b.heat) then b.heat - a.heat
      else ctx.localeCompare a.name b.name

mutual
/-- `flattenTree(treeNode, depth, isLast, parentContinues, ...)`.
`flattenForest` pairs every child (in map order) with its flattening as a
function of its `isLast` flag, which is only known after sorting; sorting
those pairs by the child comparator and applying each function in order is
exactly the source's sort-then-recurse loop, written so that the mutual
recursion is structural. -/
def flattenTree (ctx : LayoutCtx) (t : LTree) (depth : ℕ) (isLast : Bool)
    (parentContinues : List Bool) : List LayoutNode :=
  match t with
  | .mk p nm ty et tm ht g gs children =>
    let ln : LayoutNode :=
      { path := p, name := nm, type := ty, depth := depth, isLast := isLast,
        parentContinues := parentContinues, heat := ht, eventType := et,
        eventTime := tm, isGhost := g, ghostFadeStep := gs, collapsed := false,
        childCount := children.toList.length,
        changeCount :=
          if ty = .directory then
            getChangeCount (.mk p nm ty et tm ht g gs children)
          else 0 }
    if ty = .directory ∧ 0 < children.toList.length then
      let npc :=
        if 0 < depth then parentContinues ++ [!isLast] else parentContinues
      let flat := flattenForest ctx children (depth + 1) npc
      let sorted := flat.insertionSort (fun a b => childCompare ctx a.1 b.1 ≤ 0)
      ln :: sorted.enum.flatMap (fun icf =>
        icf.2.2 (decide (icf.1 = sorted.length - 1)))
    else [ln]

def flattenForest (ctx : LayoutCtx) (f : LForest) (depth : ℕ)
    (npc : List Bool) : List (LTree × (Bool → List LayoutNode)) :=
  match f with
  | .nil => []
  | .cons c rest =>
    (c, fun childIsLast => flattenTree ctx c depth childIsLast npc) ::
      flattenForest ctx rest depth npc
end

/-- `calculateLineWeight(node, treeState, gitStatus, filterPattern,
rootPath)`: root short-circuits to `WEIGHT.base.ROOT`; otherwise the
additive sum of the applicable components plus the raw heat tiebreaker. -/
def calculateLineWeight (ctx : LayoutCtx) (node : LayoutNode)
    (history : List RPath) (filterPattern : String) : ℤ :=
  if node.depth = 0 then WEIGHT_base_ROOT
  else
    let w1 := if node.type = .file then WEIGHT_type_file else WEIGHT_type_dir
    let w2 := match ctx.gitStatus with
      | some g => match g node.path node.type with
        | some st => WEIGHT_git st
        | none => 0
      | none => 0
    let w3 := if isHot node.heat then WEIGHT_heat_hot else 0
    let w4 := match node.eventType with
      | some e => WEIGHT_event e
      | none => 0
    let w5 := if node.type = .directory ∧ 0 < node.changeCount then
        WEIGHT_context_hasChangedChildren else 0
    let w6 := if node.path ∈ history then WEIGHT_context_inHistory else 0
    let w7 := if node.isGhost then WEIGHT_context_ghost else 0
    let w8 := if (matchesFilter ctx node.name node.path filterPattern).isSome
        then WEIGHT_filter_match else 0
    w1 + w2 + w3 + w4 + w5 + w6 + w7 + w8 + node.heat

/-- One candidate line of `generateAllLines` (the only `lineType` the source
produces is `'node'`). -/
structure LayoutLine where
  node : LayoutNode
  displayOrder : ℕ
  weight : ℤ
  filterMatch : Option FilterMatchType
deriving DecidableEq, Repr

/-- `generateAllLines(treeState, gitStatus, filterPattern, rootPath)`. -/
def generateAllLines (ctx : LayoutCtx) (st : LayoutTreeState)
    (filterPattern : String) : List LayoutLine :=
  let allNodes := flattenTree ctx st.root 0 true []
  allNodes.enum.map (fun ino =>
    { node := ino.2, displayOrder := ino.1,
      weight := calculateLineWeight ctx ino.2 st.history filterPattern,
      filterMatch := matchesFilter ctx ino.2.name ino.2.path filterPattern })

/-- `selectVisibleLines(allLines, availableRows)`: all lines when they fit;
otherwise stable-sort by weight descending, take the first `availableRows`,
and restore display order. -/
def selectVisibleLines (allLines : List LayoutLine) (availableRows : ℤ) :
    List LayoutLine :=
  if (allLines.length : ℤ) ≤ availableRows then allLines
  else
    let sorted := allLines.insertionSort (fun a b => b.weight ≤ a.weight)
    let selected := sorted.take availableRows.toNat
    selected.insertionSort (fun a b => a.displayOrder ≤ b.displayOrder)

/-- The record returned by `generateLayout` (the `nodes` backward
compatibility projection and the echoed terminal size are omitted). -/
structure LayoutResult where
  lines : List LayoutLine
  totalRows : ℕ
  availableRows : ℤ
  collapsed : Bool
  rootPath : String
deriving DecidableEq, Repr

/-- `generateLayout(treeState, options)`: compute the row budget, generate
all candidate lines, and select the visible ones by weight. -/
def generateLayout (ctx : LayoutCtx) (st : LayoutTreeState)
    (terminalRows : ℤ) (filterPattern : String) : LayoutResult :=
  let availableRows := calculateAvailableRows terminalRows
  let allLines := generateAllLines ctx st filterPattern
  let visibleLines := selectVisibleLines allLines availableRows
  { lines := visibleLines,
    totalRows := allLines.length,
    availableRows := availableRows,
    collapsed := decide (visibleLines.length < allLines.length),
    rootPath := ctx.rootPathStr }

mutual
/-- Every heat stored in the tree is at most `maxHeat = 100`, the invariant
`calculateAllHeat` establishes before the layout runs. -/
def heatBounded : LTree → Bool
  | .mk _ _ _ _ _ ht _ _ children => decide (ht ≤ 100) && heatBoundedF children

def heatBoundedF : LForest → Bool
  | .nil => true
  | .cons t rest => heatBounded t && heatBoundedF rest
end

mutual
theorem flattenTree_depth_le (ctx : LayoutCtx) (t : LTree) (d : ℕ) (il : Bool)
    (pc : List Bool) : ∀ ln ∈ flattenTree ctx t d il pc, d ≤ ln.depth := by
  obtain ⟨p, nm, ty, et, tm, ht, g, gs, children⟩ := t
  rw [flattenTree]
  dsimp only
  split
  · intro ln hln
    rcases List.mem_cons.mp hln with rfl | hln
    · exact le_rfl
    · rw [List.mem_flatMap] at hln
      obtain ⟨icf, hicf, hln⟩ := hln
      have hsnd : icf.2 ∈ flattenForest ctx children (d + 1)
          (if 0 < d then pc ++ [!il] else pc) := by
        have h2 : icf.2 ∈ (List.insertionSort
            (fun a b => childCompare ctx a.1 b.1 ≤ 0)
            (flattenForest ctx children (d + 1)
              (if 0 < d then pc ++ [!il] else pc))).enum.map Prod.snd :=
          List.mem_map_of_mem _ hicf
        rw [List.enum_map_snd, List.mem_insertionSort] at h2
        exact h2
      exact le_trans (Nat.le_succ d)
        (flattenForest_depth_le ctx children (d + 1) _ icf.2 hsnd _ ln hln)
  · intro ln hln
    rcases List.mem_cons.mp hln with rfl | hln
    · exact le_rfl
    · simp at hln

theorem flattenForest_depth_le (ctx : LayoutCtx) (f : LForest) (d : ℕ)
    (npc : List Bool) : ∀ x ∈ flattenForest ctx f d npc, ∀ il,
      ∀ ln ∈ x.2 il, d ≤ ln.depth := by
  cases f with
  | nil => intro x hx; simp [flattenForest] at hx
  | cons c rest =>
    intro x hx il ln hln
    rw [flattenForest] at hx
    rcases List.mem_cons.mp hx with rfl | hx
    · exact flattenTree_depth_le ctx c d il npc ln hln
    · exact flattenForest_depth_le ctx rest d npc x hx il ln hln
end

mutual
theorem flattenTree_heat_le (ctx : LayoutCtx) (t : LTree) (d : ℕ) (il : Bool)
    (pc : List Bool) (hb : heatBounded t = true) :
    ∀ ln ∈ flattenTree ctx t d il pc, ln.heat ≤ 100 := by
  obtain ⟨p, nm, ty, et, tm, ht, g, gs, children⟩ := t
  rw [heatBounded, Bool.and_eq_true, decide_eq_true_eq] at hb
  rw [flattenTree]
  dsimp only
  split
  · intro ln hln
    rcases List.mem_cons.mp hln with rfl | hln
    · exact hb.1
    · rw [List.mem_flatMap] at hln
      obtain ⟨icf, hicf, hln⟩ := hln
      have hsnd : icf.2 ∈ flattenForest ctx children (d + 1)
          (if 0 < d then pc ++ [!il] else pc) := by
        have h2 : icf.2 ∈ (List.insertionSort
            (fun a b => childCompare ctx a.1 b.1 ≤ 0)
            (flattenForest ctx children (d + 1)
              (if 0 < d then pc ++ [!il] else pc))).enum.map Prod.snd :=
          List.mem_map_of_mem _ hicf
        rw [List.enum_map_snd, List.mem_insertionSort] at h2
        exact h2
      exact flattenForest_heat_le ctx children (d + 1) _ hb.2 icf.2 hsnd _ ln hln
  · intro ln hln
    rcases List.mem_cons.mp hln with rfl | hln
    · exact hb.1
    · simp at hln

theorem flattenForest_heat_le (ctx : LayoutCtx) (f : LForest) (d : ℕ)
    (npc : List Bool) (hb : heatBoundedF f = true) :
    ∀ x ∈ flattenForest ctx f d npc, ∀ il, ∀ ln ∈ x.2 il, ln.heat ≤ 100 := by
  cases f with
  | nil => intro x hx; simp [flattenForest] at hx
  | cons c rest =>
    rw [heatBoundedF, Bool.and_eq_true] at hb
    intro x hx il ln hln
    rw [flattenForest] at hx
    rcases List.mem_cons.mp hx with rfl | hx
    · exact flattenTree_heat_le ctx c d il npc hb.1 ln hln
    · exact flattenForest_heat_le ctx rest d npc hb.2 x hx il ln hln
end

/-- Fixture tree for the witnesses: a root directory with one cold file. -/
def wCtx : LayoutCtx :=
  { rootPathStr := "/r", gitStatus := none,
    micromatch := fun _ _ => false, localeCompare := fun _ _ => 0 }

def wChild : LTree := .mk ["a"] "a" .file none none 0 false 0 .nil

def wRoot : LTree := .mk [] "r" .directory none none 0 false 0 (.cons wChild .nil)

def wSt : LayoutTreeState := { root := wRoot, history := [] }

/-- C2 counterexample: with a filter that matches five conflict-status, hot,
ghost files, each matching line weighs `10500 > 10000` and a five-row budget
drops the root even though `available_rows = 5 ≥ 1`. -/
def cexCtx2 : LayoutCtx :=
  { rootPathStr := "/r",
    gitStatus := some (fun p _ => if p = [] then none else some .conflict),
    micromatch := fun _ _ => false, localeCompare := fun _ _ => 0 }

def cexChild2 (nm : String) : LTree :=
  .mk [nm] nm .file (some .unlink) (some 0) 100 true 0 .nil

def cexRoot2 : LTree :=
  .mk [] "r" .directory none none 0 false 0
    (.ofList [cexChild2 "f1", cexChild2 "f2", cexChild2 "f3",
      cexChild2 "f4", cexChild2 "f5"])

def cexSt2 : LayoutTreeState := { root := cexRoot2, history := [] }

/-- Fixture for the C6 counterexample: a root whose name matches the
pattern. -/
def cexCtx6 : LayoutCtx :=
  { rootPathStr := "/r", gitStatus := none,
    micromatch := fun _ _ => false, localeCompare := fun _ _ => 0 }

def cexSt6 : LayoutTreeState :=
  { root := .mk [] "r" .directory none none 0 false 0 .nil, history := [] }

/-- The matching child line of the witness fixture. -/
def wLine6 : LayoutLine :=
  { node :=
      { path := ["a"], name := "a", type := .file, depth := 1, isLast := true,
        parentContinues := [], heat := 0, eventType := none, eventTime := none,
        isGhost := false, ghostFadeStep := 0, collapsed := false,
        childCount := 0, changeCount := 0 },
    displayOrder := 1, weight := 9050, filterMatch := some .text }

end Layout

/-! ### Mutable tree state (`src/lib/tree-state.mjs`)

The node graph is a path-indexed store: a node object is the store entry at
its (root-relative) path and its `children` map is the list of child keys
(the child object of key `k` under a node at path `p` is the entry at
`p ++ [k]`).  `history` keeps node paths (all reads compare paths) and
`ghosts` maps paths to their fade entries, both in JS `Map`/array order.
The recursive object-graph walks (`markChildrenAsGhosts`,
`removeFromNodesMap`) read a frozen object graph, so they are modelled as
path collectors over the frozen store; they descend one store entry per
level, so `nodes.length + 1` recursion steps always suffice, and structural
recursion on that step count keeps the definitions kernel-executable. -/

namespace TState

/-- The per-node fields of `createNode` that the modelled operations read
and write. -/
structure NodeData where
  name : String
  type : NodeType
  eventType : Option EventType
  eventTime : Option ℤ
  childKeys : List String
  isGhost : Bool
  ghostFadeStep : ℤ
deriving DecidableEq, Repr

/-- A `ghosts` table entry (`{node, deathTime, fadeStep}`; the `node`
reference is the store entry at the ghost's path). -/
structure GhostEntry where
  deathTime : ℤ
  fadeStep : ℤ
deriving DecidableEq, Repr

/-- The `TreeState` instance fields the modelled operations touch. -/
structure TreeState where
  historyLimit : ℕ
  ghostFadeSteps : ℕ
  nodes : List (RPath × NodeData)
  history : List RPath
  ghosts : List (RPath × GhostEntry)
deriving DecidableEq, Repr

/-- `Map.prototype.get`. -/
def lookup' {α : Type} : List (RPath × α) → RPath → Option α
  | [], _ => none
  | e :: t, k => if e.1 = k then some e.2 else lookup' t k

/-- Mutate the value stored under `k` in place (a field write through an
object reference); touches no other key and never inserts. -/
def updateAt {α : Type} : List (RPath × α) → RPath → (α → α) →
    List (RPath × α)
  | [], _, _ => []
  | e :: t, k, f => (if e.1 = k then (e.1, f e.2) else e) :: updateAt t k f

/-- `Map.prototype.delete`. -/
def eraseKey {α : Type} : List (RPath × α) → RPath → List (RPath × α)
  | [], _ => []
  | e :: t, k => if e.1 = k then eraseKey t k else e :: eraseKey t k

/-- `Map.prototype.set`: replace in place when the key exists (keeping its
insertion position), else append. -/
def mapSet {α : Type} (m : List (RPath × α)) (k : RPath) (v : α) :
    List (RPath × α) :=
  if m.any (fun e => e.1 = k) then
    m.map (fun e => if e.1 = k then (k, v) else e)
  else m ++ [(k, v)]

/-- The insertion-ordered key list of a map. -/
def keys {α : Type} (m : List (RPath × α)) : List RPath := m.map (fun e => e.1)

/-- The child keys of the node stored at `p` (empty when absent). -/
def childKeysAt (nodes : List (RPath × NodeData)) (p : RPath) : List String :=
  match lookup' nodes p with
  | some nd => nd.childKeys
  | none => []

/-- The paths whose nodes `markChildrenAsGhosts(node)` marks: every child in
the map, recursing into directories.  A child reference that has no store
entry is a dangling object whose mutation is unobservable. -/
def ghostMarkPaths (nodes : List (RPath × NodeData)) :
    ℕ → RPath → List RPath
  | 0, _ => []
  | steps + 1, p =>
    (childKeysAt nodes p).flatMap (fun k =>
      let c := p ++ [k]
      match lookup' nodes c with
      | none => []
      | some nd =>
        c :: (if nd.type = .directory then ghostMarkPaths nodes steps c
          else []))

/-- `markChildrenAsGhosts(node)`: set `isGhost`/`ghostFadeStep` on every
node of the subtree below `p`. -/
def markChildrenAsGhosts (s : TreeState) (p : RPath) : TreeState :=
  let markOne := fun ns q =>
    updateAt ns q (fun nd => { nd with isGhost := true, ghostFadeStep := 0 })
  { s with nodes :=
      (ghostMarkPaths s.nodes (s.nodes.length + 1) p).foldl markOne s.nodes }

/-- The node-name condition the detach step relies on: the stored `name` is
the path's last segment (`createNode` sets `name = basename(path)`). -/
def nameOk (p : RPath) (nd : NodeData) : Prop :=
  ∀ seg, p.getLast? = some seg → nd.name = seg

/-- `addToHistory(node)`: dedupe by path, push to the front, trim to
`historyLimit`. -/
def addToHistory (s : TreeState) (p : RPath) : TreeState :=
  let h := p :: s.history.filter (fun q => q ≠ p)
  { s with history :=
      if s.historyLimit < h.length then h.take s.historyLimit else h }

/-- The `dirname` chain walked by `propagateToParents`: the proper prefixes
of `p` from the immediate parent down to (and including) the root `[]`.
(For the root itself `dirname` leaves the watched tree and the walk does
not run.) -/
def ancestorPaths (p : RPath) : List RPath :=
  (List.range p.length).reverse.map (fun i => p.take i)

/-- The per-parent update of `propagateToParents`: refresh `eventTime` when
it is unset or older than `now − 100`, and in that case set `eventType` to
`childChange` unless a real direct event is stored.  (JS note: the guard
`!parentNode.eventTime` treats a `null` time as unset, modelled by
`Option`.) -/
def propagateUpdate (now : ℤ) (nd : NodeData) : NodeData :=
  let upd := { nd with
    eventTime := some now,
    eventType :=
      if nd.eventType = none ∨ nd.eventType = some .childChange then
        some EventType.childChange
      else nd.eventType }
  match nd.eventTime with
  | none => upd
  | some t => if 100 < now - t then upd else nd

/-- `propagateToParents(fullPath, eventType, now)` (the `eventType`
parameter is unused in the source as well). -/
def propagateToParents (s : TreeState) (p : RPath)
    (_eventType : Option EventType) (now : ℤ) : TreeState :=
  let upd := fun ns q => updateAt ns q (propagateUpdate now)
  { s with nodes := (ancestorPaths p).foldl upd s.nodes }

/-- The field writes `removeNode` performs on the removed node itself. -/
def ghostMark (eventType : EventType) (now : ℤ) (n : NodeData) : NodeData :=
  { n with
    isGhost := true, ghostFadeStep := 0,
    eventType := some eventType, eventTime := some now }

/-- `removeNode(fullPath, eventType)`: mark the node (and, for a directory,
its subtree) as ghosts, enter it into `ghosts`, push it to history, and
propagate to the parents.  Nothing is detached yet. -/
def removeNode (s : TreeState) (p : RPath) (eventType : EventType)
    (now : ℤ) : TreeState :=
  match lookup' s.nodes p with
  | none => s
  | some nd =>
    let s1 := { s with nodes := updateAt s.nodes p (ghostMark eventType now) }
    let s2 := if nd.type = .directory then markChildrenAsGhosts s1 p else s1
    let s3 := { s2 with
      ghosts := mapSet s2.ghosts p { deathTime := now, fadeStep := 0 } }
    let s4 := addToHistory s3 p
    propagateToParents s4 p (some eventType) now

/-- The paths `removeFromNodesMap(node)` deletes: the node itself and,
recursively, every child reachable in the frozen object graph. -/
def collectSubtree (nodes : List (RPath × NodeData)) :
    ℕ → RPath → List RPath
  | 0, p => [p]
  | steps + 1, p =>
    p :: (childKeysAt nodes p).flatMap (fun k =>
      let c := p ++ [k]
      if (lookup' nodes c).isSome then collectSubtree nodes steps c
      else [c])

/-- `parent.children.delete(node.name)`. -/
def detachChild (nm : String) (pd : NodeData) : NodeData :=
  { pd with childKeys := pd.childKeys.filter (fun n => n ≠ nm) }

/-- `fullyRemoveNode(fullPath)`: detach from the parent's children, delete
the subtree from the node map, and drop the path from history.  (The
`dirname` of the watched root lies outside the tree, so the root `[]` has
no parent entry to detach from.) -/
def fullyRemoveNode (s : TreeState) (p : RPath) : TreeState :=
  match lookup' s.nodes p with
  | none => s
  | some nd =>
    let s1 :=
      if p = [] then s
      else { s with
        nodes := updateAt s.nodes p.dropLast (detachChild nd.name) }
    let erased :=
      (collectSubtree s1.nodes (s1.nodes.length + 1) p).foldl eraseKey s1.nodes
    let s2 := { s1 with nodes := erased }
    { s2 with history := s2.history.filter (fun q => q ≠ p) }

/-- One iteration of the `advanceGhosts` loop at key `p`: step the fade,
mirror it on the node, and finalize once `fadeStep ≥ ghostFadeSteps`.  (An
entry deleted earlier in the iteration is skipped, as the JS `Map` iterator
does.) -/
def advanceGhostStep (acc : TreeState × Bool) (p : RPath) :
    TreeState × Bool :=
  match lookup' acc.1.ghosts p with
  | none => acc
  | some g =>
    let f := g.fadeStep + 1
    let s1 := { acc.1 with
      ghosts := updateAt acc.1.ghosts p (fun gg => { gg with fadeStep := f }) }
    let s2 := { s1 with
      nodes := updateAt s1.nodes p (fun nd => { nd with ghostFadeStep := f }) }
    if (s2.ghostFadeSteps : ℤ) ≤ f then
      let s3 := fullyRemoveNode s2 p
      ({ s3 with ghosts := eraseKey s3.ghosts p }, true)
    else (s2, acc.2)

/-- `advanceGhosts()`: iterate over the ghost entries in map order; the
returned flag records whether any ghost was finalized. -/
def advanceGhosts (s : TreeState) : TreeState × Bool :=
  (keys s.ghosts).foldl advanceGhostStep (s, false)

/-- `advanceGhosts()` called `n` times. -/
def advanceGhostsN : ℕ → TreeState → TreeState
  | 0, s => s
  | n + 1, s => advanceGhostsN n (advanceGhosts s).1

/-- `isInHistory(path)`. -/
def isInHistory (s : TreeState) (p : RPath) : Bool := s.history.contains p

/-- A plain directory node record. -/
def dirND (name : String) (childKeys : List String) : NodeData :=
  { name := name, type := .directory, eventType := none, eventTime := none,
    childKeys := childKeys, isGhost := false, ghostFadeStep := 0 }

/-- A plain file node record. -/
def fileND (name : String) : NodeData :=
  { name := name, type := .file, eventType := none, eventTime := none,
    childKeys := [], isGhost := false, ghostFadeStep := 0 }

/-- A one-node state used by several witnesses. -/
def wSt10 : TreeState :=
  { historyLimit := 4, ghostFadeSteps := 3, nodes := [([], dirND "r" [])],
    history := [], ghosts := [] }

/-- C7 counterexample state: the parent `a` of the changed file `a/z` has a
fresh `eventTime` (within 100 ms of `now`) but no `eventType`. -/
def cexSt7 : TreeState :=
  { historyLimit := 4, ghostFadeSteps := 3,
    nodes :=
      [([], dirND "r" ["a"]),
       (["a"], { dirND "a" ["z"] with eventTime := some 1000 }),
       (["a", "z"], { fileND "z" with
          eventType := some .change, eventTime := some 1050 })],
    history := [], ghosts := [] }

/-- The four ways `p` is gone after its ghost is finalized: no node entry,
not in history, no ghost entry, and not among the parent's `childKeys`. -/
def Absent (p : RPath) (st : TreeState) : Prop :=
  lookup' st.nodes p = none ∧ p ∉ st.history ∧
  lookup' st.ghosts p = none ∧
  ∀ seg, p.getLast? = some seg → ∀ pd,
    lookup' st.nodes p.dropLast = some pd → seg ∉ pd.childKeys

/-- The node store after the detach step of `fullyRemoveNode` (the root has
no parent entry, so nothing is detached for `p = []`). -/
def detachBase (s : TreeState) (p : RPath) (nd : NodeData) :
    List (RPath × NodeData) :=
  if p = [] then s.nodes
  else updateAt s.nodes p.dropLast (detachChild nd.name)

/-- The state after the fade-increment half of one `advanceGhosts`
iteration at key `q`: the ghost entry's `fadeStep` and the node's
`ghostFadeStep` mirror are bumped to `g.fadeStep + 1`. -/
def stepped (acc : TreeState × Bool) (q : RPath) (g : GhostEntry) :
    TreeState :=
  { acc.1 with
    ghosts := updateAt acc.1.ghosts q
      (fun gg => { gg with fadeStep := g.fadeStep + 1 }),
    nodes := updateAt acc.1.nodes q
      (fun nd => { nd with ghostFadeStep := g.fadeStep + 1 }) }

/-- C5 counterexample state: a directory `a` (already a fading ghost,
`fadeStep = 2` of 3) contains the live file `a/f`. -/
def cexSt5 : TreeState :=
  { historyLimit := 50, ghostFadeSteps := 3,
    nodes :=
      [([], dirND "r" ["a"]),
       (["a"],
        { name := "a", type := NodeType.directory, eventType := some .unlinkDir,
          eventTime := some 0, childKeys := ["f"], isGhost := true,
          ghostFadeStep := 2 }),
       (["a", "f"], fileND "f")],
    history := [],
    ghosts := [(["a"], { deathTime := 0, fadeStep := 2 })] }

/-- A two-node state (root directory plus one file) for the C5 witness. -/
def wSt5 : TreeState :=
  { historyLimit := 50, ghostFadeSteps := 2,
    nodes := [([], dirND "r" ["f"]), (["f"], fileND "f")],
    history := [], ghosts := [] }

end TState

/-! ### Theorems: the claim theorems, their witnesses, and the
supporting lemmas, per module -/

namespace Heat

theorem eventWeight_pos (e : Option EventType) : 0 < eventWeight e := by
  rcases e with _ | e
  · norm_num [eventWeight, EVENT_WEIGHTS_default]
  · cases e <;> norm_num [eventWeight, EVENT_WEIGHTS, EVENT_WEIGHTS_default]

theorem heatDecay_pos (elapsed : ℝ) : 0 < heatDecay elapsed :=
  Real.rpow_pos_of_pos (by norm_num) _

theorem heatDecay_antitone {e₁ e₂ : ℝ} (h : e₁ ≤ e₂) :
    heatDecay e₂ ≤ heatDecay e₁ := by
  unfold heatDecay
  rw [Real.rpow_le_rpow_left_iff one_lt_two]
  unfold halfLife
  linarith

theorem heatDecay_halfLife (elapsed : ℝ) :
    heatDecay (elapsed + halfLife) = heatDecay elapsed / 2 := by
  unfold heatDecay
  have h : -(elapsed + halfLife) / halfLife = -elapsed / halfLife + (-1 : ℝ) := by
    unfold halfLife; ring
  rw [h, Real.rpow_add (by norm_num), Real.rpow_neg_one]
  ring

theorem foldl_max_le {α} [LinearOrder α] {l : List α} {a c : α} (ha : a ≤ c)
    (hl : ∀ x ∈ l, x ≤ c) : l.foldl max a ≤ c := by
  induction l generalizing a with
  | nil => exact ha
  | cons x t ih =>
    exact ih (max_le ha (hl x (List.mem_cons_self x t)))
      (fun y hy => hl y (List.mem_cons_of_mem x hy))

theorem le_foldl_max {α} [LinearOrder α] (l : List α) (a : α) :
    a ≤ l.foldl max a := by
  induction l generalizing a with
  | nil => exact le_rfl
  | cons x t ih => exact (le_max_left a x).trans (ih (max a x))

/-- C3: `calculateHeat` returns `0` when the event time is none; otherwise it
is `weight(event_kind) * 2 ^ (-(now - event_time) / halfLife)` clamped to
`maxHeat`; it is non-negative and non-increasing in `now`; and adding one
half-life to `now` halves the unclamped value `weight * decay`. -/
theorem calculateHeat_spec :
    (∀ e now, calculateHeat e none now = 0) ∧
    (∀ e t now, calculateHeat e (some t) now =
        min (eventWeight e * (2 : ℝ) ^ (-(now - t) / halfLife)) maxHeat) ∧
    (∀ e et now, 0 ≤ calculateHeat e et now) ∧
    (∀ e et now now', now ≤ now' →
        calculateHeat e et now' ≤ calculateHeat e et now) ∧
    (∀ e t now, eventWeight e * heatDecay (now + halfLife - t) =
        eventWeight e * heatDecay (now - t) / 2) := by
  refine ⟨fun _ _ => rfl, fun _ _ _ => rfl, ?_, ?_, ?_⟩
  · intro e et now
    rcases et with _ | t
    · exact le_rfl
    · exact le_min
        (mul_nonneg (eventWeight_pos e).le (heatDecay_pos (now - t)).le)
        (by norm_num [maxHeat])
  · intro e et now now' h
    rcases et with _ | t
    · exact le_rfl
    · exact min_le_min
        (mul_le_mul_of_nonneg_left (heatDecay_antitone (by linarith))
          (eventWeight_pos e).le) le_rfl
  · intro e t now
    rw [show now + halfLife - t = (now - t) + halfLife by ring,
      heatDecay_halfLife]
    ring

/-- Witness for C3 at concrete inputs. -/
theorem calculateHeat_spec_witness :
    calculateHeat (some .change) none 0 = 0 ∧
    calculateHeat (some .change) (some 0) 10000 ≤
      calculateHeat (some .change) (some 0) 0 :=
  ⟨calculateHeat_spec.1 _ _,
   calculateHeat_spec.2.2.2.1 _ _ 0 10000 (by norm_num)⟩

/-- C4 counterexample: the dominance inequality
`dir_heat(children, own) ≥ max(own, max(children))` fails as universally
stated: with child heats `[0]` and own heat `200` the clamp to `maxHeat`
gives `100 < 200 = max(own, max(children))`. -/
theorem calculateDirHeat_dominance_cex :
    calculateDirHeat [0] 200 = 100 ∧
    ¬ max (200 : ℝ) (List.foldl max 0 ([] : List ℝ)) ≤ calculateDirHeat [0] 200 := by
  constructor
  · simp [calculateDirHeat]
    norm_num [maxHeat]
  · simp [calculateDirHeat]
    norm_num [maxHeat]

/-- C4 (amended): `calculateDirHeat` returns `ownHeat` on an empty child list
and otherwise `min(maxHeat, max(ownHeat, max(childHeats) + 0.1 * Σ))`; the
dominance inequality `dir_heat ≥ max(own, max(children))` holds whenever the
own heat is at most `maxHeat` and every child heat lies in `[0, maxHeat]`
(as `calculate_all_heat` guarantees). -/
theorem calculateDirHeat_spec :
    (∀ own, calculateDirHeat [] own = own) ∧
    (∀ h t own, calculateDirHeat (h :: t) own =
        min maxHeat (max own
          (t.foldl max h + dirChildSumWeight * (h :: t).sum))) ∧
    (∀ h t own, own ≤ maxHeat → (∀ x ∈ h :: t, 0 ≤ x ∧ x ≤ maxHeat) →
        max own (t.foldl max h) ≤ calculateDirHeat (h :: t) own) := by
  refine ⟨fun _ => rfl, ?_, ?_⟩
  · intro h t own
    show min (max (t.foldl max h + (h :: t).sum * dirChildSumWeight) own)
        maxHeat = _
    rw [min_comm, max_comm, mul_comm]
  · intro h t own hown hmem
    have hsum : 0 ≤ (h :: t).sum :=
      List.sum_nonneg (fun x hx => (hmem x hx).1)
    have hfold_le : t.foldl max h ≤ maxHeat :=
      foldl_max_le (hmem h (List.mem_cons_self h t)).2
        (fun x hx => (hmem x (List.mem_cons_of_mem h hx)).2)
    show _ ≤ min (max (t.foldl max h + (h :: t).sum * dirChildSumWeight) own)
        maxHeat
    refine le_min (max_le ?_ ?_) (max_le hown hfold_le)
    · exact le_max_right _ _
    · refine le_max_of_le_left ?_
      have : 0 ≤ (h :: t).sum * dirChildSumWeight :=
        mul_nonneg hsum (by norm_num [dirChildSumWeight])
      linarith

/-- Witness for C4 at concrete inputs. -/
theorem calculateDirHeat_spec_witness :
    max (0 : ℝ) (List.foldl max 60 ([] : List ℝ)) ≤ calculateDirHeat [60] 0 :=
  calculateDirHeat_spec.2.2 60 [] 0 (by norm_num [maxHeat])
    (by intro x hx; simp at hx; subst hx; norm_num [maxHeat])

end Heat

namespace Git

/-- C9: the porcelain line `R  old.txt -> new.txt` records a status only for
`new.txt` (the right-hand path of the rename), classified as staged;
`old.txt` receives no entry. -/
theorem fetchFileStatus_rename :
    fetchFileStatus "/repo" "R  old.txt -> new.txt" =
      [("/repo/new.txt", .staged)] ∧
    (fetchFileStatus "/repo" "R  old.txt -> new.txt").lookup "/repo/new.txt" =
      some .staged ∧
    (fetchFileStatus "/repo" "R  old.txt -> new.txt").lookup "/repo/old.txt" =
      none := by
  refine ⟨?_, ?_, ?_⟩ <;> decide

end Git

namespace Layout

theorem generateAllLines_orders (ctx : LayoutCtx) (st : LayoutTreeState)
    (pat : String) :
    (generateAllLines ctx st pat).map (fun l => l.displayOrder) =
      List.range (flattenTree ctx st.root 0 true []).length := by
  unfold generateAllLines
  rw [List.map_map]
  exact List.enum_map_fst _

theorem generateAllLines_pairwise_lt (ctx : LayoutCtx) (st : LayoutTreeState)
    (pat : String) :
    (generateAllLines ctx st pat).Pairwise
      (fun a b => a.displayOrder < b.displayOrder) := by
  have h : List.Pairwise (· < ·)
      ((generateAllLines ctx st pat).map (fun l => l.displayOrder)) := by
    rw [generateAllLines_orders]
    exact List.pairwise_lt_range _
  exact List.pairwise_map.mp h

theorem generateAllLines_orders_nodup (ctx : LayoutCtx) (st : LayoutTreeState)
    (pat : String) :
    ((generateAllLines ctx st pat).map (fun l => l.displayOrder)).Nodup := by
  rw [generateAllLines_orders]
  exact List.nodup_range _

theorem mem_generateAllLines {ctx : LayoutCtx} {st : LayoutTreeState}
    {pat : String} {l : LayoutLine} (h : l ∈ generateAllLines ctx st pat) :
    l.node ∈ flattenTree ctx st.root 0 true [] ∧
    l.weight = calculateLineWeight ctx l.node st.history pat := by
  unfold generateAllLines at h
  rw [List.mem_map] at h
  obtain ⟨ino, hmem, rfl⟩ := h
  refine ⟨?_, rfl⟩
  have h2 : ino.2 ∈ (flattenTree ctx st.root 0 true []).enum.map Prod.snd :=
    List.mem_map_of_mem _ hmem
  rwa [List.enum_map_snd] at h2

theorem flattenTree_cons (ctx : LayoutCtx) (t : LTree) (d : ℕ) (il : Bool)
    (pc : List Bool) :
    ∃ ln rest, flattenTree ctx t d il pc = ln :: rest ∧
      ln.depth = d ∧ ln.heat = t.heat := by
  obtain ⟨p, nm, ty, et, tm, ht, g, gs, children⟩ := t
  rw [flattenTree]
  dsimp only
  split
  · exact ⟨_, _, rfl, rfl, rfl⟩
  · exact ⟨_, _, rfl, rfl, rfl⟩

theorem selectVisibleLines_all_fit {all : List LayoutLine} {avail : ℤ}
    (h : (all.length : ℤ) ≤ avail) : selectVisibleLines all avail = all := by
  unfold selectVisibleLines
  rw [if_pos h]

theorem selectVisibleLines_length_le (all : List LayoutLine) (avail : ℤ)
    (h0 : 0 ≤ avail) : ((selectVisibleLines all avail).length : ℤ) ≤ avail := by
  unfold selectVisibleLines
  split
  · assumption
  · dsimp only
    rw [List.length_insertionSort, List.length_take,
      List.length_insertionSort]
    have := Int.toNat_of_nonneg h0
    omega

theorem selectVisibleLines_pairwise (all : List LayoutLine) (avail : ℤ)
    (hset : (all.map (fun l => l.displayOrder)).Nodup)
    (hpw : all.Pairwise (fun a b => a.displayOrder < b.displayOrder)) :
    (selectVisibleLines all avail).Pairwise
      (fun a b => a.displayOrder < b.displayOrder) := by
  unfold selectVisibleLines
  split
  · exact hpw
  · dsimp only
    haveI : IsTotal LayoutLine (fun a b => a.displayOrder ≤ b.displayOrder) :=
      ⟨fun a b => Nat.le_total _ _⟩
    haveI : IsTrans LayoutLine (fun a b => a.displayOrder ≤ b.displayOrder) :=
      ⟨fun _ _ _ => Nat.le_trans⟩
    have hsorted := List.sorted_insertionSort
      (fun a b : LayoutLine => a.displayOrder ≤ b.displayOrder)
      ((all.insertionSort (fun a b => b.weight ≤ a.weight)).take avail.toNat)
    have hnodup : (((((all.insertionSort
        (fun a b => b.weight ≤ a.weight)).take avail.toNat)).insertionSort
          (fun a b => a.displayOrder ≤ b.displayOrder)).map
            (fun l => l.displayOrder)).Nodup := by
      have p1 := List.perm_insertionSort
        (fun a b : LayoutLine => a.displayOrder ≤ b.displayOrder)
        ((all.insertionSort (fun a b => b.weight ≤ a.weight)).take avail.toNat)
      have p2 := List.perm_insertionSort
        (fun a b : LayoutLine => b.weight ≤ a.weight) all
      have h3 : ((all.insertionSort (fun a b => b.weight ≤ a.weight)).map
          (fun l => l.displayOrder)).Nodup :=
        ((p2.map _).nodup_iff).mpr hset
      have h4 := ((List.take_sublist avail.toNat _).map
        (fun l : LayoutLine => l.displayOrder)).nodup h3
      exact ((p1.map _).nodup_iff).mpr h4
    have hne := List.pairwise_map.mp hnodup
    exact (hsorted.and hne).imp (fun h => lt_of_le_of_ne h.1 h.2)

/-- C1: every layout's line list is bounded by
`max(minRows, rows − headerRows − footerRows)`, its display orders are
strictly increasing, every candidate is returned when all candidates fit the
budget, and `collapsed` is set iff fewer lines than candidates survive. -/
theorem generateLayout_selection_spec (ctx : LayoutCtx) (st : LayoutTreeState)
    (terminalRows : ℤ) (pat : String) :
    (((generateLayout ctx st terminalRows pat).lines.length : ℤ) ≤
        max minRows (terminalRows - headerRows - footerRows)) ∧
    (generateLayout ctx st terminalRows pat).lines.Pairwise
      (fun a b => a.displayOrder < b.displayOrder) ∧
    (((generateAllLines ctx st pat).length : ℤ) ≤
        (generateLayout ctx st terminalRows pat).availableRows →
      (generateLayout ctx st terminalRows pat).lines =
        generateAllLines ctx st pat) ∧
    ((generateLayout ctx st terminalRows pat).collapsed = true ↔
      (generateLayout ctx st terminalRows pat).lines.length <
        (generateLayout ctx st terminalRows pat).totalRows) := by
  have h0 : (0 : ℤ) ≤ calculateAvailableRows terminalRows := by
    have h5 : minRows ≤ calculateAvailableRows terminalRows :=
      le_max_right _ _
    have : (0 : ℤ) ≤ minRows := by norm_num [minRows]
    linarith
  refine ⟨?_, ?_, ?_, ?_⟩
  · show ((selectVisibleLines (generateAllLines ctx st pat)
        (calculateAvailableRows terminalRows)).length : ℤ) ≤ _
    exact le_trans (selectVisibleLines_length_le _ _ h0)
      (le_of_eq (by rw [calculateAvailableRows, max_comm]))
  · exact selectVisibleLines_pairwise _ _
      (generateAllLines_orders_nodup ctx st pat)
      (generateAllLines_pairwise_lt ctx st pat)
  · intro h
    exact selectVisibleLines_all_fit h
  · show decide (_ < _) = true ↔ _
    exact decide_eq_true_iff

/-- Witness for C1 at a concrete tree and terminal size. -/
theorem generateLayout_selection_spec_witness :
    (generateLayout wCtx wSt 10 "").lines = generateAllLines wCtx wSt "" :=
  (generateLayout_selection_spec wCtx wSt 10 "").2.2.1 (by decide)

theorem matchesFilter_empty (ctx : LayoutCtx) (n : String) (p : RPath) :
    matchesFilter ctx n p "" = none := rfl

theorem w_type_le (ty : NodeType) :
    (if ty = .file then WEIGHT_type_file else WEIGHT_type_dir) ≤ 100 := by
  split <;> norm_num [WEIGHT_type_file, WEIGHT_type_dir]

theorem w_git_le (gs : Option (RPath → NodeType → Option Git.GitStatusClass))
    (p : RPath) (ty : NodeType) :
    (match gs with
      | some g => (match g p ty with
        | some st => WEIGHT_git st
        | none => 0)
      | none => (0 : ℤ)) ≤ 800 := by
  rcases gs with _ | g
  · norm_num
  · rcases h : g p ty with _ | s
    · simp only [h]; norm_num
    · simp only [h]; cases s <;> norm_num [WEIGHT_git]

theorem w_event_le (et : Option EventType) :
    (match et with
      | some e => WEIGHT_event e
      | none => (0 : ℤ)) ≤ 150 := by
  rcases et with _ | e
  · norm_num
  · cases e <;> norm_num [WEIGHT_event]

/-- With an empty filter pattern, every non-root candidate whose heat obeys
the `maxHeat` invariant weighs strictly less than the root's fixed
`WEIGHT.base.ROOT`. -/
theorem calculateLineWeight_lt_root (ctx : LayoutCtx) (n : LayoutNode)
    (hist : List RPath) (hd : n.depth ≠ 0) (hh : n.heat ≤ 100) :
    calculateLineWeight ctx n hist "" < WEIGHT_base_ROOT := by
  unfold calculateLineWeight
  rw [if_neg hd]
  simp only [matchesFilter_empty, Option.isSome_none, Bool.false_eq_true,
    if_false]
  have h1 := w_type_le n.type
  have h2 := w_git_le ctx.gitStatus n.path n.type
  have h3 : (if isHot n.heat then WEIGHT_heat_hot else 0) ≤ 350 := by
    split <;> norm_num [WEIGHT_heat_hot]
  have h4 := w_event_le n.eventType
  have h5 : (if n.type = .directory ∧ 0 < n.changeCount then
      WEIGHT_context_hasChangedChildren else 0) ≤ 200 := by
    split <;> norm_num [WEIGHT_context_hasChangedChildren]
  have h6 : (if n.path ∈ hist then WEIGHT_context_inHistory else 0) ≤ 100 := by
    split <;> norm_num [WEIGHT_context_inHistory]
  have h7 : (if n.isGhost then WEIGHT_context_ghost else 0) ≤ 50 := by
    split <;> norm_num [WEIGHT_context_ghost]
  have : WEIGHT_base_ROOT = (10000 : ℤ) := rfl
  linarith

/-- C2 counterexample theorem: the layout at 8 terminal rows has
`available_rows = 5 ≥ 1` but contains no depth-0 (root) line. -/
theorem generateLayout_root_cex :
    (generateLayout cexCtx2 cexSt2 8 "f").availableRows = 5 ∧
    ∀ l ∈ (generateLayout cexCtx2 cexSt2 8 "f").lines, l.node.depth ≠ 0 := by
  decide

/-- C2 (amended): with an empty filter pattern and heats within the
`calculate_all_heat` range, the root line (depth 0, weight 10 000) is in
every layout; `available_rows` is always at least 1 (indeed at least
`minRows`). -/
theorem generateLayout_root_present (ctx : LayoutCtx) (st : LayoutTreeState)
    (terminalRows : ℤ) (hb : heatBounded st.root = true) :
    1 ≤ (generateLayout ctx st terminalRows "").availableRows ∧
    ∃ l ∈ (generateLayout ctx st terminalRows "").lines,
      l.node.depth = 0 ∧ l.weight = WEIGHT_base_ROOT := by
  have h5 : minRows ≤ calculateAvailableRows terminalRows := le_max_right _ _
  have h1 : (1 : ℤ) ≤ calculateAvailableRows terminalRows := by
    have : (1 : ℤ) ≤ minRows := by norm_num [minRows]
    linarith
  have h0 : (0 : ℤ) ≤ calculateAvailableRows terminalRows := by linarith
  refine ⟨h1, ?_⟩
  obtain ⟨ln0, rest, hflat, hdepth, _⟩ := flattenTree_cons ctx st.root 0 true []
  have hw0 : calculateLineWeight ctx ln0 st.history "" = WEIGHT_base_ROOT := by
    unfold calculateLineWeight
    rw [if_pos hdepth]
  set l₀ : LayoutLine :=
    { node := ln0, displayOrder := 0,
      weight := calculateLineWeight ctx ln0 st.history "",
      filterMatch := matchesFilter ctx ln0.name ln0.path "" } with hl₀
  have hl₀mem : l₀ ∈ generateAllLines ctx st "" := by
    unfold generateAllLines
    rw [List.mem_map]
    refine ⟨(0, ln0), ?_, rfl⟩
    rw [hflat, List.enum_cons]
    exact List.mem_cons_self _ _
  -- every line is either a depth-0 line of weight ROOT or weighs < ROOT
  have hkey : ∀ l ∈ generateAllLines ctx st "", l.node.depth ≠ 0 →
      l.weight < WEIGHT_base_ROOT := by
    intro l hl hld
    obtain ⟨hnode, hweq⟩ := mem_generateAllLines hl
    have hheat : l.node.heat ≤ 100 :=
      flattenTree_heat_le ctx st.root 0 true [] hb l.node hnode
    rw [hweq]
    exact calculateLineWeight_lt_root ctx l.node st.history hld hheat
  have hdepth0 : ∀ l ∈ generateAllLines ctx st "",
      WEIGHT_base_ROOT ≤ l.weight → l.node.depth = 0 ∧
        l.weight = WEIGHT_base_ROOT := by
    intro l hl hwl
    by_cases hld : l.node.depth = 0
    · refine ⟨hld, ?_⟩
      obtain ⟨_, hweq⟩ := mem_generateAllLines hl
      rw [hweq]
      unfold calculateLineWeight
      rw [if_pos hld]
    · exact absurd hwl (not_le.mpr (hkey l hl hld))
  show ∃ l ∈ selectVisibleLines (generateAllLines ctx st "")
      (calculateAvailableRows terminalRows), _
  unfold selectVisibleLines
  split
  · exact ⟨l₀, hl₀mem, hdepth, by rw [hl₀, hw0]⟩
  · dsimp only
    haveI : IsTotal LayoutLine (fun a b : LayoutLine => b.weight ≤ a.weight) :=
      ⟨fun a b => le_total _ _⟩
    haveI : IsTrans LayoutLine (fun a b : LayoutLine => b.weight ≤ a.weight) :=
      ⟨fun _ _ _ hab hbc => le_trans hbc hab⟩
    have hpw := List.sorted_insertionSort
      (fun a b : LayoutLine => b.weight ≤ a.weight) (generateAllLines ctx st "")
    have hl₀s : l₀ ∈ (generateAllLines ctx st "").insertionSort
        (fun a b => b.weight ≤ a.weight) :=
      (List.mem_insertionSort _).mpr hl₀mem
    obtain ⟨h₀, stail, hs⟩ : ∃ h₀ stail,
        (generateAllLines ctx st "").insertionSort
          (fun a b => b.weight ≤ a.weight) = h₀ :: stail := by
      cases hse : (generateAllLines ctx st "").insertionSort
          (fun a b => b.weight ≤ a.weight) with
      | nil => rw [hse] at hl₀s; simp at hl₀s
      | cons a t => exact ⟨a, t, rfl⟩
    have hh₀w : WEIGHT_base_ROOT ≤ h₀.weight := by
      rw [hs] at hl₀s
      rcases List.mem_cons.mp hl₀s with heq | htl
      · rw [← heq]
        exact le_of_eq hw0.symm
      · rw [hs] at hpw
        have hle := (List.pairwise_cons.mp hpw).1 l₀ htl
        rw [← hw0]
        exact hle
    have hh₀mem : h₀ ∈ generateAllLines ctx st "" := by
      have : h₀ ∈ (generateAllLines ctx st "").insertionSort
          (fun a b => b.weight ≤ a.weight) := by
        rw [hs]; exact List.mem_cons_self _ _
      exact (List.mem_insertionSort _).mp this
    obtain ⟨hh₀d, hh₀weq⟩ := hdepth0 h₀ hh₀mem hh₀w
    refine ⟨h₀, ?_, hh₀d, hh₀weq⟩
    rw [List.mem_insertionSort]
    obtain ⟨m, hm⟩ : ∃ m, (calculateAvailableRows terminalRows).toNat =
        m + 1 := ⟨(calculateAvailableRows terminalRows).toNat - 1, by omega⟩
    rw [hs, hm, List.take_succ_cons]
    exact List.mem_cons_self _ _

/-- Witness for C2's amended theorem at a concrete tree. -/
theorem generateLayout_root_present_witness :
    1 ≤ (generateLayout wCtx wSt 10 "").availableRows ∧
    ∃ l ∈ (generateLayout wCtx wSt 10 "").lines,
      l.node.depth = 0 ∧ l.weight = WEIGHT_base_ROOT :=
  generateLayout_root_present wCtx wSt 10 (by decide)

/-- In a weight-descending sorted list, an element is within the first `R`
entries as soon as at most `R` entries weigh at least as much as it. -/
theorem mem_take_of_sorted_countP {l : List LayoutLine} {m : LayoutLine}
    (hs : l.Pairwise (fun a b => b.weight ≤ a.weight)) (hm : m ∈ l) {R : ℕ}
    (hc : l.countP (fun x => decide (m.weight ≤ x.weight)) ≤ R) :
    m ∈ l.take R := by
  induction l generalizing R with
  | nil => simp at hm
  | cons a t ih =>
    have hpos : 0 < (a :: t).countP (fun x => decide (m.weight ≤ x.weight)) :=
      List.countP_pos_iff.mpr ⟨m, hm, by simp⟩
    obtain ⟨R', rfl⟩ : ∃ R', R = R' + 1 := ⟨R - 1, by omega⟩
    rw [List.take_succ_cons]
    rcases List.mem_cons.mp hm with rfl | hmt
    · exact List.mem_cons_self _ _
    · have hma : m.weight ≤ a.weight := (List.pairwise_cons.mp hs).1 m hmt
      have hcount : (a :: t).countP (fun x => decide (m.weight ≤ x.weight)) =
          t.countP (fun x => decide (m.weight ≤ x.weight)) + 1 := by
        rw [List.countP_cons]
        simp [hma]
      refine List.mem_cons_of_mem _ (ih (List.Pairwise.of_cons hs) hmt ?_)
      omega

/-- C6 (amended): every candidate line of positive depth whose node matches
the filter weighs exactly its unfiltered weight plus `WEIGHT.filter.match`
(9 000); the root line short-circuits to `WEIGHT.base.ROOT` and receives no
bonus.  A matching candidate appears in the layout whenever the budget
admits it: when at most `available_rows` candidates weigh at least as much
as it does. -/
theorem generateLayout_filter_spec :
    (∀ (ctx : LayoutCtx) (hist : List RPath) (pat : String) (n : LayoutNode),
      n.depth ≠ 0 → (matchesFilter ctx n.name n.path pat).isSome = true →
      calculateLineWeight ctx n hist pat =
        calculateLineWeight ctx n hist "" + WEIGHT_filter_match) ∧
    (∀ (ctx : LayoutCtx) (st : LayoutTreeState) (rows : ℤ) (pat : String)
      (m : LayoutLine), m ∈ generateAllLines ctx st pat →
      (matchesFilter ctx m.node.name m.node.path pat).isSome = true →
      (((generateAllLines ctx st pat).countP
          (fun x => decide (m.weight ≤ x.weight)) : ℤ) ≤
        (generateLayout ctx st rows pat).availableRows) →
      m ∈ (generateLayout ctx st rows pat).lines) := by
  constructor
  · intro ctx hist pat n hd hm
    unfold calculateLineWeight
    rw [if_neg hd, if_neg hd]
    simp only [matchesFilter_empty, Option.isSome_none, Bool.false_eq_true,
      if_false, hm, if_true]
    ring
  · intro ctx st rows pat m hmem hmatch hbudget
    have h0 : (0 : ℤ) ≤ calculateAvailableRows rows := by
      have h5 : minRows ≤ calculateAvailableRows rows := le_max_right _ _
      have : (0 : ℤ) ≤ minRows := by norm_num [minRows]
      linarith
    show m ∈ selectVisibleLines (generateAllLines ctx st pat)
      (calculateAvailableRows rows)
    unfold selectVisibleLines
    split
    · exact hmem
    · dsimp only
      rw [List.mem_insertionSort]
      have hav : (generateLayout ctx st rows pat).availableRows =
          calculateAvailableRows rows := rfl
      rw [hav] at hbudget
      haveI : IsTotal LayoutLine (fun a b : LayoutLine => b.weight ≤ a.weight) :=
        ⟨fun a b => le_total _ _⟩
      haveI : IsTrans LayoutLine (fun a b : LayoutLine => b.weight ≤ a.weight) :=
        ⟨fun _ _ _ hab hbc => le_trans hbc hab⟩
      have hpw := List.sorted_insertionSort
        (fun a b : LayoutLine => b.weight ≤ a.weight)
        (generateAllLines ctx st pat)
      have hms : m ∈ (generateAllLines ctx st pat).insertionSort
          (fun a b => b.weight ≤ a.weight) :=
        (List.mem_insertionSort _).mpr hmem
      have hcount : ((generateAllLines ctx st pat).insertionSort
          (fun a b => b.weight ≤ a.weight)).countP
            (fun x => decide (m.weight ≤ x.weight)) ≤
          (calculateAvailableRows rows).toNat := by
        rw [(List.perm_insertionSort
          (fun a b : LayoutLine => b.weight ≤ a.weight)
          (generateAllLines ctx st pat)).countP_eq]
        omega
      exact mem_take_of_sorted_countP hpw hms hcount

/-- C6 counterexample: the root line matches the filter `"r"` but its weight
is the unfiltered `10 000`, not `10 000 + 9 000`: matching lines of depth 0
receive no filter bonus. -/
theorem generateLayout_filter_cex :
    ((generateAllLines cexCtx6 cexSt6 "r").map
        (fun l => (l.filterMatch, l.weight)) = [(some .text, 10000)]) ∧
    ((generateAllLines cexCtx6 cexSt6 "").map (fun l => l.weight) =
        [10000]) ∧
    (10000 : ℤ) ≠ 10000 + WEIGHT_filter_match := by
  decide

/-- Witness for C6 at a concrete tree, filter `"a"` and 50 terminal rows. -/
theorem generateLayout_filter_spec_witness :
    calculateLineWeight wCtx wLine6.node [] "a" =
      calculateLineWeight wCtx wLine6.node [] "" + WEIGHT_filter_match ∧
    wLine6 ∈ (generateLayout wCtx wSt 50 "a").lines :=
  ⟨generateLayout_filter_spec.1 wCtx [] "a" wLine6.node
      (by decide) (by decide),
   generateLayout_filter_spec.2 wCtx wSt 50 "a" wLine6
      (by decide) (by decide)
      (by decide)⟩

end Layout

namespace TState

/-- C10: `removeNode` on a path absent from the index returns at once,
leaving the whole state — nodes, history, ghosts, and every node's fields —
unchanged. -/
theorem removeNode_absent (s : TreeState) (p : RPath) (et : EventType)
    (now : ℤ) (h : lookup' s.nodes p = none) :
    removeNode s p et now = s := by
  unfold removeNode
  rw [h]

/-- Witness for C10 at a concrete state. -/
theorem removeNode_absent_witness :
    removeNode wSt10 ["x"] .unlink 1000 = wSt10 :=
  removeNode_absent wSt10 ["x"] .unlink 1000 (by decide)

theorem lookup'_updateAt {α : Type} (m : List (RPath × α)) (k q : RPath)
    (f : α → α) :
    lookup' (updateAt m k f) q =
      if q = k then (lookup' m q).map f else lookup' m q := by
  induction m with
  | nil => simp [lookup', updateAt]
  | cons e t ih =>
    rw [updateAt]
    by_cases h1 : e.1 = k
    · by_cases h2 : e.1 = q
      · have hqk : q = k := h2.symm.trans h1
        simp [lookup', h1, h2, hqk]
      · have hqk : q ≠ k := fun hq => h2 (h1.trans hq.symm)
        simp [lookup', h1, h2, hqk, Ne.symm hqk, ih]
    · by_cases h2 : e.1 = q
      · have hqk : q ≠ k := fun hq => h1 (h2.trans hq)
        simp [lookup', h1, h2, hqk, Ne.symm hqk]
      · simp [lookup', h1, h2, ih]

theorem lookup'_eraseKey {α : Type} (m : List (RPath × α)) (k q : RPath) :
    lookup' (eraseKey m k) q = if q = k then none else lookup' m q := by
  induction m with
  | nil => simp [lookup', eraseKey]
  | cons e t ih =>
    rw [eraseKey]
    by_cases h1 : e.1 = k
    · by_cases h2 : e.1 = q
      · have hqk : q = k := h2.symm.trans h1
        subst hqk
        simp [lookup', h1, ih]
      · have hqk : q ≠ k := fun hq => h2 (h1.trans hq.symm)
        simp [lookup', h1, h2, hqk, Ne.symm hqk, ih]
    · by_cases h2 : e.1 = q
      · have hqk : q ≠ k := fun hq => h1 (h2.trans hq)
        simp [lookup', h1, h2, hqk, Ne.symm hqk]
      · simp [lookup', h1, h2, ih]

theorem foldl_updateAt_lookup (qs : List RPath)
    (m : List (RPath × NodeData)) (f : NodeData → NodeData) (hn : qs.Nodup)
    (q : RPath) :
    lookup' (qs.foldl (fun a r => updateAt a r f) m) q =
      if q ∈ qs then (lookup' m q).map f else lookup' m q := by
  induction qs generalizing m with
  | nil => simp
  | cons r rest ih =>
    obtain ⟨hr, hrest⟩ := List.nodup_cons.mp hn
    rw [List.foldl_cons, ih (updateAt m r f) hrest]
    by_cases hq : q ∈ rest
    · rw [if_pos hq, if_pos (List.mem_cons_of_mem r hq)]
      have hqr : q ≠ r := fun he => hr (he ▸ hq)
      rw [lookup'_updateAt, if_neg hqr]
    · rw [if_neg hq, lookup'_updateAt]
      by_cases hqr : q = r
      · rw [if_pos hqr, if_pos (hqr ▸ List.mem_cons_self r rest)]
      · rw [if_neg hqr, if_neg (by simp [hqr, hq])]

theorem ancestorPaths_mem (p q : RPath) :
    q ∈ ancestorPaths p ↔ (q <+: p ∧ q ≠ p) := by
  unfold ancestorPaths
  rw [List.mem_map]
  constructor
  · rintro ⟨i, hi, rfl⟩
    rw [List.mem_reverse, List.mem_range] at hi
    refine ⟨List.take_prefix i p, ?_⟩
    intro he
    have := congrArg List.length he
    rw [List.length_take] at this
    omega
  · rintro ⟨hpre, hne⟩
    refine ⟨q.length, ?_, ?_⟩
    · rw [List.mem_reverse, List.mem_range]
      rcases lt_or_eq_of_le hpre.length_le with h | h
      · exact h
      · exact absurd (hpre.eq_of_length h) hne
    · exact (List.prefix_iff_eq_take.mp hpre).symm

theorem ancestorPaths_nodup (p : RPath) : (ancestorPaths p).Nodup := by
  unfold ancestorPaths
  refine List.Nodup.map_on ?_ (List.nodup_reverse.mpr (List.nodup_range _))
  intro i hi j hj he
  rw [List.mem_reverse, List.mem_range] at hi hj
  have h1 := congrArg List.length he
  rw [List.length_take, List.length_take] at h1
  omega

/-- C7 counterexample: the visited parent `a` has no `event_kind`, yet
`propagateToParents` leaves it `none` (the kind update is nested inside the
freshness guard, and `a`'s `event_time` is fresh), contradicting the
claim's unconditional "if it has no event_kind … set it to childChange". -/
theorem propagateToParents_cex :
    (["a"] : RPath) ∈ ancestorPaths ["a", "z"] ∧
    (lookup' cexSt7.nodes ["a"]).map (fun nd => nd.eventType) = some none ∧
    (lookup'
        (propagateToParents cexSt7 ["a", "z"] (some .change) 1050).nodes
        ["a"]).map (fun nd => nd.eventType) = some none := by
  decide

/-- C7 (amended): `propagateToParents` visits exactly the proper prefixes of
the path — every ancestor up to and including the root — and rewrites each
visited node by `propagateUpdate`: when the node's `event_time` is unset or
older than `now − 100` it is set to `now` and, in that case only, a missing
or `childChange` `event_kind` becomes `childChange` while a real direct
event kind is kept; a parent with a fresh `event_time` is left entirely
unchanged.  Non-ancestors are untouched. -/
theorem propagateToParents_spec (s : TreeState) (p : RPath)
    (et : Option EventType) (now : ℤ) :
    (∀ q, q ∈ ancestorPaths p ↔ (q <+: p ∧ q ≠ p)) ∧
    (∀ q, q ∈ ancestorPaths p →
      lookup' (propagateToParents s p et now).nodes q =
        (lookup' s.nodes q).map (propagateUpdate now)) ∧
    (∀ q, q ∉ ancestorPaths p →
      lookup' (propagateToParents s p et now).nodes q = lookup' s.nodes q) ∧
    (∀ nd e, nd.eventType = some e → e ≠ .childChange →
      (propagateUpdate now nd).eventType = some e) ∧
    (∀ nd, (nd.eventTime = none ∨ ∃ t, nd.eventTime = some t ∧ 100 < now - t) →
      (propagateUpdate now nd).eventTime = some now ∧
      ((nd.eventType = none ∨ nd.eventType = some .childChange) →
        (propagateUpdate now nd).eventType = some .childChange)) ∧
    (∀ nd t, nd.eventTime = some t → ¬ 100 < now - t →
      propagateUpdate now nd = nd) := by
  refine ⟨ancestorPaths_mem p, ?_, ?_, ?_, ?_, ?_⟩
  · intro q hq
    show lookup' ((ancestorPaths p).foldl
      (fun ns r => updateAt ns r (propagateUpdate now)) s.nodes) q = _
    rw [foldl_updateAt_lookup _ _ _ (ancestorPaths_nodup p), if_pos hq]
  · intro q hq
    show lookup' ((ancestorPaths p).foldl
      (fun ns r => updateAt ns r (propagateUpdate now)) s.nodes) q = _
    rw [foldl_updateAt_lookup _ _ _ (ancestorPaths_nodup p), if_neg hq]
  · intro nd e he hne
    have hcond : ¬ (nd.eventType = none ∨
        nd.eventType = some EventType.childChange) := by
      rw [he]
      rintro (h | h)
      · exact Option.noConfusion h
      · exact hne (Option.some.inj h)
    rcases ht : nd.eventTime with _ | t
    · simp only [propagateUpdate, ht, if_neg hcond]
      exact he
    · by_cases hlt : 100 < now - t
      · simp only [propagateUpdate, ht, if_pos hlt, if_neg hcond]
        exact he
      · simp only [propagateUpdate, ht, if_neg hlt]
        exact he
  · intro nd hnd
    rcases ht : nd.eventTime with _ | t
    · refine ⟨by simp [propagateUpdate, ht], ?_⟩
      rintro (hk | hk) <;> simp [propagateUpdate, ht, hk]
    · rcases hnd with h | ⟨t', ht', hlt⟩
      · rw [ht] at h
        exact Option.noConfusion h
      · rw [ht] at ht'
        obtain rfl : t = t' := Option.some.inj ht'
        refine ⟨by simp [propagateUpdate, ht, hlt], ?_⟩
        rintro (hk | hk) <;> simp [propagateUpdate, ht, hlt, hk]
  · intro nd t ht hlt
    simp [propagateUpdate, ht, hlt]

/-- Witness for C7 at a concrete state: the root `[]` is an ancestor of
`a/z` and is rewritten by `propagateUpdate`. -/
theorem propagateToParents_spec_witness :
    lookup' (propagateToParents cexSt7 ["a", "z"] none 5000).nodes [] =
      (lookup' cexSt7.nodes []).map (propagateUpdate 5000) :=
  (propagateToParents_spec cexSt7 ["a", "z"] none 5000).2.1 [] (by decide)

theorem keys_cons {α : Type} (e : RPath × α) (t : List (RPath × α)) :
    keys (e :: t) = e.1 :: keys t := rfl

theorem keys_updateAt {α : Type} (m : List (RPath × α)) (k : RPath)
    (f : α → α) : keys (updateAt m k f) = keys m := by
  induction m with
  | nil => rfl
  | cons e t ih =>
    rw [updateAt]
    by_cases h : e.1 = k
    · rw [if_pos h, keys_cons, keys_cons, ih]
    · rw [if_neg h, keys_cons, keys_cons, ih]

theorem keys_eraseKey {α : Type} (m : List (RPath × α)) (k : RPath) :
    List.Sublist (keys (eraseKey m k)) (keys m) := by
  induction m with
  | nil => simp [eraseKey]
  | cons e t ih =>
    rw [eraseKey]
    by_cases h : e.1 = k
    · rw [if_pos h]
      exact List.Sublist.cons e.1 ih
    · rw [if_neg h]
      exact List.Sublist.cons₂ e.1 ih

theorem mem_keys_of_lookup' {α : Type} (m : List (RPath × α)) (q : RPath)
    (v : α) (h : lookup' m q = some v) : q ∈ keys m := by
  induction m with
  | nil => exact Option.noConfusion h
  | cons e t ih =>
    rw [lookup'] at h
    by_cases he : e.1 = q
    · rw [keys_cons, ← he]
      exact List.mem_cons_self e.1 (keys t)
    · rw [if_neg he] at h
      rw [keys_cons]
      exact List.mem_cons_of_mem _ (ih h)

theorem lookup'_eq_none {α : Type} (m : List (RPath × α)) (q : RPath)
    (h : q ∉ keys m) : lookup' m q = none := by
  induction m with
  | nil => rfl
  | cons e t ih =>
    simp only [keys, List.map_cons, List.mem_cons, not_or] at h
    rw [lookup', if_neg (fun he => h.1 he.symm)]
    exact ih h.2

theorem lookup'_append {α : Type} (m l : List (RPath × α)) (q : RPath)
    (h : lookup' m q = none) : lookup' (m ++ l) q = lookup' l q := by
  induction m with
  | nil => rfl
  | cons e t ih =>
    rw [lookup'] at h
    by_cases he : e.1 = q
    · rw [if_pos he] at h
      exact Option.noConfusion h
    · rw [if_neg he] at h
      rw [List.cons_append, lookup', if_neg he]
      exact ih h

theorem keys_nil {α : Type} : keys ([] : List (RPath × α)) = [] := rfl

theorem any_key_iff {α : Type} (m : List (RPath × α)) (k : RPath) :
    (m.any (fun e => e.1 = k) = true) ↔ k ∈ keys m := by
  induction m with
  | nil =>
    constructor
    · intro h
      exact Bool.noConfusion h
    · intro h
      exact absurd h (List.not_mem_nil k)
  | cons e t ih =>
    rw [List.any_cons, keys_cons, List.mem_cons, Bool.or_eq_true, ih]
    constructor
    · rintro (h | h)
      · exact Or.inl (of_decide_eq_true h).symm
      · exact Or.inr h
    · rintro (h | h)
      · exact Or.inl (decide_eq_true h.symm)
      · exact Or.inr h

theorem keys_map_replace {α : Type} (m : List (RPath × α)) (k : RPath)
    (v : α) :
    keys (m.map (fun e => if e.1 = k then (k, v) else e)) = keys m := by
  induction m with
  | nil => rfl
  | cons e t ih =>
    rw [List.map_cons]
    by_cases hek : e.1 = k
    · rw [if_pos hek, keys_cons, keys_cons, ih, hek]
    · rw [if_neg hek, keys_cons, keys_cons, ih]

theorem lookup'_map_replace {α : Type} (m : List (RPath × α)) (k : RPath)
    (v : α) (q : RPath) :
    lookup' (m.map (fun e => if e.1 = k then (k, v) else e)) q =
      if q = k then (if k ∈ keys m then some v else none)
      else lookup' m q := by
  induction m with
  | nil =>
    by_cases hq : q = k
    · rw [List.map_nil, if_pos hq, keys_nil, if_neg (List.not_mem_nil k)]
      rfl
    · rw [List.map_nil, if_neg hq]
  | cons e t ih =>
    rw [List.map_cons]
    by_cases hek : e.1 = k
    · rw [if_pos hek, lookup']
      by_cases hqk : q = k
      · subst hqk
        have hkm : q ∈ keys (e :: t) := by
          rw [keys_cons, ← hek]
          exact List.mem_cons_self e.1 (keys t)
        rw [if_pos rfl, if_pos rfl, if_pos hkm]
      · have heq : ¬ e.1 = q := fun h => hqk ((hek.symm.trans h).symm)
        rw [if_neg (show ¬ (k, v).1 = q from fun h => hqk h.symm), ih,
          if_neg hqk, if_neg hqk, lookup', if_neg heq]
    · rw [if_neg hek, lookup', lookup']
      by_cases heq : e.1 = q
      · have hqk : ¬ q = k := fun h => hek (heq.trans h)
        rw [if_pos heq, if_neg hqk, if_pos heq]
      · rw [if_neg heq, if_neg heq, ih]
        by_cases hqk : q = k
        · rw [if_pos hqk, if_pos hqk]
          have hmem : (k ∈ keys (e :: t)) ↔ (k ∈ keys t) := by
            rw [keys_cons, List.mem_cons]
            constructor
            · rintro (h | h)
              · exact absurd h.symm hek
              · exact h
            · exact Or.inr
          by_cases hkt : k ∈ keys t
          · rw [if_pos hkt, if_pos (hmem.mpr hkt)]
          · rw [if_neg hkt, if_neg (fun h => hkt (hmem.mp h))]
        · rw [if_neg hqk, if_neg hqk]

theorem lookup'_append' {α : Type} (m l : List (RPath × α)) (q : RPath) :
    lookup' (m ++ l) q =
      (match lookup' m q with
       | some v => some v
       | none => lookup' l q) := by
  induction m with
  | nil => rfl
  | cons e t ih =>
    rw [List.cons_append, lookup', lookup']
    by_cases he : e.1 = q
    · rw [if_pos he, if_pos he]
    · rw [if_neg he, if_neg he, ih]

theorem lookup'_mapSet {α : Type} (m : List (RPath × α)) (k : RPath) (v : α)
    (q : RPath) :
    lookup' (mapSet m k v) q = if q = k then some v else lookup' m q := by
  unfold mapSet
  by_cases ha : m.any (fun e => e.1 = k)
  · rw [if_pos ha, lookup'_map_replace, if_pos ((any_key_iff m k).mp ha)]
  · have hk : k ∉ keys m := fun h => ha ((any_key_iff m k).mpr h)
    rw [if_neg ha]
    by_cases hq : q = k
    · subst hq
      rw [lookup'_append m _ q (lookup'_eq_none m q hk), if_pos rfl,
        lookup', if_pos rfl]
    · rw [if_neg hq, lookup'_append']
      rcases hm : lookup' m q with _ | v'
      · show lookup' [(k, v)] q = none
        rw [lookup', if_neg (fun h : (k, v).1 = q => hq h.symm)]
        rfl
      · rfl

theorem keys_mapSet {α : Type} (m : List (RPath × α)) (k : RPath) (v : α) :
    keys (mapSet m k v) =
      if k ∈ keys m then keys m else keys m ++ [k] := by
  unfold mapSet
  by_cases ha : m.any (fun e => e.1 = k)
  · rw [if_pos ha, keys_map_replace, if_pos ((any_key_iff m k).mp ha)]
  · rw [if_neg ha, if_neg (fun h => ha ((any_key_iff m k).mpr h))]
    simp [keys]

theorem nodup_keys_mapSet {α : Type} (m : List (RPath × α)) (k : RPath)
    (v : α) (h : (keys m).Nodup) : (keys (mapSet m k v)).Nodup := by
  rw [keys_mapSet]
  by_cases hk : k ∈ keys m
  · rwa [if_pos hk]
  · rw [if_neg hk]
    simp [List.nodup_append, h, hk]

theorem mem_keys_mapSet {α : Type} (m : List (RPath × α)) (k : RPath)
    (v : α) (r : RPath) (h : r ∈ keys (mapSet m k v)) :
    r ∈ keys m ∨ r = k := by
  rw [keys_mapSet] at h
  by_cases hk : k ∈ keys m
  · rw [if_pos hk] at h
    exact Or.inl h
  · rw [if_neg hk] at h
    simpa using List.mem_append.mp h

theorem lookup'_foldl_eraseKey {α : Type} (l : List RPath)
    (m : List (RPath × α)) (q : RPath) :
    lookup' (l.foldl eraseKey m) q =
      if q ∈ l then none else lookup' m q := by
  induction l generalizing m with
  | nil => simp
  | cons r t ih =>
    rw [List.foldl_cons, ih]
    by_cases hq : q ∈ t
    · simp [hq]
    · by_cases hr : q = r
      · subst hr
        simp [hq, lookup'_eraseKey]
      · simp [hq, hr, lookup'_eraseKey]

theorem collectSubtree_self_mem (nodes : List (RPath × NodeData)) (fuel : ℕ)
    (p : RPath) : p ∈ collectSubtree nodes fuel p := by
  cases fuel <;> simp [collectSubtree]

theorem collectSubtree_extends (nodes : List (RPath × NodeData)) (fuel : ℕ) :
    ∀ p q, q ∈ collectSubtree nodes fuel p → p <+: q := by
  induction fuel with
  | zero =>
    intro p q h
    simp [collectSubtree] at h
    exact h ▸ List.prefix_refl q
  | succ n ih =>
    intro p q h
    rw [collectSubtree] at h
    rcases List.mem_cons.mp h with rfl | h
    · exact List.prefix_refl q
    · rcases List.mem_flatMap.mp h with ⟨k, _, hq⟩
      by_cases hs : (lookup' nodes (p ++ [k])).isSome
      · rw [if_pos hs] at hq
        exact List.IsPrefix.trans ⟨[k], rfl⟩ (ih (p ++ [k]) q hq)
      · rw [if_neg hs] at hq
        rcases List.mem_singleton.mp hq with rfl
        exact ⟨[k], rfl⟩

theorem ghostMarkPaths_length (nodes : List (RPath × NodeData)) (fuel : ℕ) :
    ∀ p q, q ∈ ghostMarkPaths nodes fuel p → p.length < q.length := by
  induction fuel with
  | zero =>
    intro p q h
    simp [ghostMarkPaths] at h
  | succ n ih =>
    intro p q h
    rw [ghostMarkPaths] at h
    rcases List.mem_flatMap.mp h with ⟨k, _, hq⟩
    rcases hnd : lookup' nodes (p ++ [k]) with _ | nd
    · simp only [hnd] at hq
      exact absurd hq (List.not_mem_nil q)
    · simp only [hnd] at hq
      rcases List.mem_cons.mp hq with rfl | hq
      · simp
      · by_cases hdir : nd.type = NodeType.directory
        · rw [if_pos hdir] at hq
          have := ih (p ++ [k]) q hq
          simp at this
          omega
        · rw [if_neg hdir] at hq
          exact absurd hq (List.not_mem_nil q)

theorem fullyRemoveNode_ghosts (s : TreeState) (p : RPath) :
    (fullyRemoveNode s p).ghosts = s.ghosts := by
  unfold fullyRemoveNode
  rcases h : lookup' s.nodes p with _ | nd
  · rfl
  · by_cases hp : p = [] <;> simp [hp]

theorem fullyRemoveNode_fadeSteps (s : TreeState) (p : RPath) :
    (fullyRemoveNode s p).ghostFadeSteps = s.ghostFadeSteps := by
  unfold fullyRemoveNode
  rcases h : lookup' s.nodes p with _ | nd
  · rfl
  · by_cases hp : p = [] <;> simp [hp]

theorem fullyRemoveNode_history (s : TreeState) (p : RPath) (nd : NodeData)
    (h : lookup' s.nodes p = some nd) :
    (fullyRemoveNode s p).history = s.history.filter (fun q => q ≠ p) := by
  unfold fullyRemoveNode
  rw [h]
  by_cases hp : p = [] <;> simp [hp]

theorem fullyRemoveNode_history_subset (s : TreeState) (p q : RPath)
    (h : q ∈ (fullyRemoveNode s p).history) : q ∈ s.history := by
  rcases hl : lookup' s.nodes p with _ | nd
  · unfold fullyRemoveNode at h
    rw [hl] at h
    exact h
  · rw [fullyRemoveNode_history s p nd hl] at h
    exact (List.mem_filter.mp h).1

theorem fullyRemoveNode_history_self (s : TreeState) (p : RPath)
    (nd : NodeData) (h : lookup' s.nodes p = some nd) :
    p ∉ (fullyRemoveNode s p).history := by
  rw [fullyRemoveNode_history s p nd h]
  intro hm
  have := (List.mem_filter.mp hm).2
  simp at this

theorem fullyRemoveNode_nodes (s : TreeState) (p : RPath) (nd : NodeData)
    (h : lookup' s.nodes p = some nd) (q : RPath) :
    lookup' (fullyRemoveNode s p).nodes q =
      if q ∈ collectSubtree (detachBase s p nd)
          ((detachBase s p nd).length + 1) p then none
      else lookup' (detachBase s p nd) q := by
  have hn : (fullyRemoveNode s p).nodes =
      (collectSubtree (detachBase s p nd)
        ((detachBase s p nd).length + 1) p).foldl eraseKey
        (detachBase s p nd) := by
    unfold fullyRemoveNode detachBase
    rw [h]
    by_cases hp : p = [] <;> simp [hp]
  rw [hn, lookup'_foldl_eraseKey]

theorem detachBase_lookup (s : TreeState) (p : RPath) (nd : NodeData)
    (q : RPath) :
    lookup' (detachBase s p nd) q =
      if p ≠ [] ∧ q = p.dropLast then
        (lookup' s.nodes q).map (detachChild nd.name)
      else lookup' s.nodes q := by
  unfold detachBase
  by_cases hp : p = []
  · rw [if_pos hp, if_neg (by simp [hp])]
  · rw [if_neg hp, lookup'_updateAt]
    by_cases hq : q = p.dropLast
    · rw [if_pos hq, if_pos ⟨hp, hq⟩]
    · rw [if_neg hq, if_neg (fun hc => hq hc.2)]

theorem fullyRemoveNode_lookup_self (s : TreeState) (p : RPath)
    (nd : NodeData) (h : lookup' s.nodes p = some nd) :
    lookup' (fullyRemoveNode s p).nodes p = none := by
  rw [fullyRemoveNode_nodes s p nd h,
    if_pos (collectSubtree_self_mem _ _ _)]

theorem fullyRemoveNode_none (s : TreeState) (p q : RPath)
    (h : lookup' s.nodes q = none) :
    lookup' (fullyRemoveNode s p).nodes q = none := by
  rcases hl : lookup' s.nodes p with _ | nd
  · unfold fullyRemoveNode
    rw [hl]
    exact h
  · rw [fullyRemoveNode_nodes s p nd hl]
    by_cases hc : q ∈ collectSubtree (detachBase s p nd)
        ((detachBase s p nd).length + 1) p
    · rw [if_pos hc]
    · rw [if_neg hc, detachBase_lookup]
      by_cases hd : p ≠ [] ∧ q = p.dropLast
      · rw [if_pos hd, h]
        rfl
      · rw [if_neg hd]
        exact h

theorem fullyRemoveNode_keeps (s : TreeState) (r q : RPath) (v : NodeData)
    (hq : ¬ r <+: q) (hv : lookup' s.nodes q = some v) :
    ∃ v', lookup' (fullyRemoveNode s r).nodes q = some v' ∧
      v'.name = v.name ∧ ∀ sg ∈ v'.childKeys, sg ∈ v.childKeys := by
  rcases hl : lookup' s.nodes r with _ | nd
  · unfold fullyRemoveNode
    rw [hl]
    exact ⟨v, hv, rfl, fun sg h => h⟩
  · rw [fullyRemoveNode_nodes s r nd hl]
    have hc : q ∉ collectSubtree (detachBase s r nd)
        ((detachBase s r nd).length + 1) r :=
      fun hm => hq (collectSubtree_extends _ _ r q hm)
    rw [if_neg hc, detachBase_lookup]
    by_cases hd : r ≠ [] ∧ q = r.dropLast
    · rw [if_pos hd, hv]
      exact ⟨detachChild nd.name v, rfl, rfl,
        fun sg h => (List.mem_filter.mp h).1⟩
    · rw [if_neg hd]
      exact ⟨v, hv, rfl, fun sg h => h⟩

theorem fullyRemoveNode_childKeys_sub (s : TreeState) (r q : RPath)
    (pd' : NodeData)
    (h : lookup' (fullyRemoveNode s r).nodes q = some pd') :
    ∃ pd, lookup' s.nodes q = some pd ∧
      ∀ sg ∈ pd'.childKeys, sg ∈ pd.childKeys := by
  rcases hl : lookup' s.nodes r with _ | nd
  · unfold fullyRemoveNode at h
    rw [hl] at h
    exact ⟨pd', h, fun sg hs => hs⟩
  · rw [fullyRemoveNode_nodes s r nd hl] at h
    by_cases hc : q ∈ collectSubtree (detachBase s r nd)
        ((detachBase s r nd).length + 1) r
    · rw [if_pos hc] at h
      exact Option.noConfusion h
    · rw [if_neg hc, detachBase_lookup] at h
      by_cases hd : r ≠ [] ∧ q = r.dropLast
      · rw [if_pos hd] at h
        rcases hsq : lookup' s.nodes q with _ | pd
        · rw [hsq] at h
          exact Option.noConfusion h
        · rw [hsq] at h
          have he : detachChild nd.name pd = pd' := Option.some.inj h
          refine ⟨pd, rfl, ?_⟩
          rw [← he]
          exact fun sg hs => (List.mem_filter.mp hs).1
      · rw [if_neg hd] at h
        exact ⟨pd', h, fun sg hs => hs⟩

theorem fullyRemoveNode_detach (s : TreeState) (p : RPath) (nd : NodeData)
    (h : lookup' s.nodes p = some nd) :
    ∀ pd', lookup' (fullyRemoveNode s p).nodes p.dropLast = some pd' →
      nd.name ∉ pd'.childKeys := by
  intro pd' hpd
  by_cases hp : p = []
  · subst hp
    rw [show List.dropLast ([] : RPath) = [] from rfl,
      fullyRemoveNode_lookup_self s [] nd h] at hpd
    exact Option.noConfusion hpd
  · rw [fullyRemoveNode_nodes s p nd h] at hpd
    by_cases hc : p.dropLast ∈ collectSubtree (detachBase s p nd)
        ((detachBase s p nd).length + 1) p
    · rw [if_pos hc] at hpd
      exact Option.noConfusion hpd
    · rw [if_neg hc, detachBase_lookup, if_pos ⟨hp, rfl⟩] at hpd
      rcases hsq : lookup' s.nodes p.dropLast with _ | pd
      · rw [hsq] at hpd
        exact Option.noConfusion hpd
      · rw [hsq] at hpd
        have he : detachChild nd.name pd = pd' := Option.some.inj hpd
        rw [← he]
        intro hmem
        have := (List.mem_filter.mp hmem).2
        simp at this

theorem advanceGhostStep_eq_none (acc : TreeState × Bool) (q : RPath)
    (hg : lookup' acc.1.ghosts q = none) : advanceGhostStep acc q = acc := by
  unfold advanceGhostStep
  rw [hg]

theorem advanceGhostStep_eq_keep (acc : TreeState × Bool) (q : RPath)
    (g : GhostEntry) (hg : lookup' acc.1.ghosts q = some g)
    (hf : ¬ (acc.1.ghostFadeSteps : ℤ) ≤ g.fadeStep + 1) :
    advanceGhostStep acc q = (stepped acc q g, acc.2) := by
  unfold advanceGhostStep
  rw [hg]
  exact if_neg hf

theorem advanceGhostStep_eq_final (acc : TreeState × Bool) (q : RPath)
    (g : GhostEntry) (hg : lookup' acc.1.ghosts q = some g)
    (hf : (acc.1.ghostFadeSteps : ℤ) ≤ g.fadeStep + 1) :
    advanceGhostStep acc q =
      ({ fullyRemoveNode (stepped acc q g) q with
          ghosts := eraseKey (fullyRemoveNode (stepped acc q g) q).ghosts q },
        true) := by
  unfold advanceGhostStep
  rw [hg]
  exact if_pos hf

theorem stepped_ghosts_lookup (acc : TreeState × Bool) (q : RPath)
    (g : GhostEntry) (p : RPath) :
    lookup' (stepped acc q g).ghosts p =
      if p = q then
        (lookup' acc.1.ghosts p).map
          (fun gg => { gg with fadeStep := g.fadeStep + 1 })
      else lookup' acc.1.ghosts p :=
  lookup'_updateAt acc.1.ghosts q p _

theorem stepped_nodes_lookup (acc : TreeState × Bool) (q : RPath)
    (g : GhostEntry) (p : RPath) :
    lookup' (stepped acc q g).nodes p =
      if p = q then
        (lookup' acc.1.nodes p).map
          (fun nd => { nd with ghostFadeStep := g.fadeStep + 1 })
      else lookup' acc.1.nodes p :=
  lookup'_updateAt acc.1.nodes q p _

theorem advanceGhostStep_fadeSteps (acc : TreeState × Bool) (q : RPath) :
    (advanceGhostStep acc q).1.ghostFadeSteps = acc.1.ghostFadeSteps := by
  rcases hg : lookup' acc.1.ghosts q with _ | g
  · rw [advanceGhostStep_eq_none acc q hg]
  · by_cases hf : (acc.1.ghostFadeSteps : ℤ) ≤ g.fadeStep + 1
    · rw [advanceGhostStep_eq_final acc q g hg hf]
      show (fullyRemoveNode (stepped acc q g) q).ghostFadeSteps =
        acc.1.ghostFadeSteps
      rw [fullyRemoveNode_fadeSteps]
      rfl
    · rw [advanceGhostStep_eq_keep acc q g hg hf]
      rfl

theorem advanceGhostStep_keys (acc : TreeState × Bool) (q : RPath) :
    List.Sublist (keys (advanceGhostStep acc q).1.ghosts)
      (keys acc.1.ghosts) := by
  rcases hg : lookup' acc.1.ghosts q with _ | g
  · rw [advanceGhostStep_eq_none acc q hg]
  · have hst : (stepped acc q g).ghosts =
        updateAt acc.1.ghosts q
          (fun gg => { gg with fadeStep := g.fadeStep + 1 }) := rfl
    by_cases hf : (acc.1.ghostFadeSteps : ℤ) ≤ g.fadeStep + 1
    · rw [advanceGhostStep_eq_final acc q g hg hf]
      show List.Sublist
        (keys (eraseKey (fullyRemoveNode (stepped acc q g) q).ghosts q)) _
      refine List.Sublist.trans (keys_eraseKey _ q) ?_
      rw [fullyRemoveNode_ghosts, hst, keys_updateAt]
    · rw [advanceGhostStep_eq_keep acc q g hg hf]
      show List.Sublist (keys (stepped acc q g).ghosts) _
      rw [hst, keys_updateAt]

theorem advanceGhostStep_other (acc : TreeState × Bool) (q p : RPath)
    (hq : ¬ q <+: p) :
    lookup' (advanceGhostStep acc q).1.ghosts p = lookup' acc.1.ghosts p ∧
    (∀ v, lookup' acc.1.nodes p = some v →
      ∃ v', lookup' (advanceGhostStep acc q).1.nodes p = some v' ∧
        v'.name = v.name) := by
  have hqp : q ≠ p := fun h => hq (h ▸ List.prefix_refl p)
  have hpq : ¬ p = q := fun h => hqp h.symm
  rcases hg : lookup' acc.1.ghosts q with _ | g
  · rw [advanceGhostStep_eq_none acc q hg]
    exact ⟨rfl, fun v hv => ⟨v, hv, rfl⟩⟩
  · by_cases hf : (acc.1.ghostFadeSteps : ℤ) ≤ g.fadeStep + 1
    · rw [advanceGhostStep_eq_final acc q g hg hf]
      constructor
      · show lookup'
          (eraseKey (fullyRemoveNode (stepped acc q g) q).ghosts q) p = _
        rw [lookup'_eraseKey, if_neg hpq, fullyRemoveNode_ghosts,
          stepped_ghosts_lookup, if_neg hpq]
      · intro v hv
        have hsv : lookup' (stepped acc q g).nodes p = some v := by
          rw [stepped_nodes_lookup, if_neg hpq]
          exact hv
        obtain ⟨v', hv', hname, _⟩ :=
          fullyRemoveNode_keeps (stepped acc q g) q p v hq hsv
        exact ⟨v', hv', hname⟩
    · rw [advanceGhostStep_eq_keep acc q g hg hf]
      constructor
      · show lookup' (stepped acc q g).ghosts p = _
        rw [stepped_ghosts_lookup, if_neg hpq]
      · intro v hv
        refine ⟨v, ?_, rfl⟩
        show lookup' (stepped acc q g).nodes p = some v
        rw [stepped_nodes_lookup, if_neg hpq]
        exact hv

theorem stepped_detach_pres (acc : TreeState × Bool) (q : RPath)
    (g : GhostEntry) (p : RPath)
    (hd : ∀ seg, p.getLast? = some seg → ∀ pd,
      lookup' acc.1.nodes p.dropLast = some pd → seg ∉ pd.childKeys) :
    ∀ seg, p.getLast? = some seg → ∀ pd,
      lookup' (stepped acc q g).nodes p.dropLast = some pd →
        seg ∉ pd.childKeys := by
  intro seg hseg pd hpd
  rw [stepped_nodes_lookup] at hpd
  by_cases hdq : p.dropLast = q
  · rw [if_pos hdq] at hpd
    rcases horig : lookup' acc.1.nodes p.dropLast with _ | pd0
    · rw [horig] at hpd
      exact Option.noConfusion hpd
    · rw [horig] at hpd
      have he : { pd0 with ghostFadeStep := g.fadeStep + 1 } = pd :=
        Option.some.inj hpd
      rw [← he]
      exact hd seg hseg pd0 horig
  · rw [if_neg hdq] at hpd
    exact hd seg hseg pd hpd

theorem advanceGhostStep_absent (acc : TreeState × Bool) (q p : RPath)
    (h : Absent p acc.1) : Absent p (advanceGhostStep acc q).1 := by
  obtain ⟨hn, hh, hg, hd⟩ := h
  rcases hgq : lookup' acc.1.ghosts q with _ | g
  · rw [advanceGhostStep_eq_none acc q hgq]
    exact ⟨hn, hh, hg, hd⟩
  · have hpq : ¬ p = q := by
      intro he
      rw [← he] at hgq
      rw [hg] at hgq
      exact Option.noConfusion hgq
    have hsn : lookup' (stepped acc q g).nodes p = none := by
      rw [stepped_nodes_lookup, if_neg hpq]
      exact hn
    have hsg : lookup' (stepped acc q g).ghosts p = none := by
      rw [stepped_ghosts_lookup, if_neg hpq]
      exact hg
    have hsd := stepped_detach_pres acc q g p hd
    by_cases hf : (acc.1.ghostFadeSteps : ℤ) ≤ g.fadeStep + 1
    · rw [advanceGhostStep_eq_final acc q g hgq hf]
      refine ⟨?_, ?_, ?_, ?_⟩
      · show lookup' (fullyRemoveNode (stepped acc q g) q).nodes p = none
        exact fullyRemoveNode_none (stepped acc q g) q p hsn
      · show p ∉ (fullyRemoveNode (stepped acc q g) q).history
        intro hm
        exact hh (fullyRemoveNode_history_subset (stepped acc q g) q p hm)
      · show lookup'
          (eraseKey (fullyRemoveNode (stepped acc q g) q).ghosts q) p = none
        rw [lookup'_eraseKey, if_neg hpq, fullyRemoveNode_ghosts]
        exact hsg
      · intro seg hseg pd' hpd'
        have hpd2 : lookup'
            (fullyRemoveNode (stepped acc q g) q).nodes p.dropLast =
            some pd' := hpd'
        obtain ⟨pd, hpd, hsub⟩ :=
          fullyRemoveNode_childKeys_sub (stepped acc q g) q p.dropLast pd' hpd2
        intro hmem
        exact hsd seg hseg pd hpd (hsub seg hmem)
    · rw [advanceGhostStep_eq_keep acc q g hgq hf]
      exact ⟨hsn, hh, hsg, hsd⟩

theorem advanceGhostStep_self_keep (acc : TreeState × Bool) (p : RPath)
    (g : GhostEntry) (hg : lookup' acc.1.ghosts p = some g)
    (hf : ¬ (acc.1.ghostFadeSteps : ℤ) ≤ g.fadeStep + 1) :
    lookup' (advanceGhostStep acc p).1.ghosts p =
      some { g with fadeStep := g.fadeStep + 1 } ∧
    (∀ v, lookup' acc.1.nodes p = some v →
      lookup' (advanceGhostStep acc p).1.nodes p =
        some { v with ghostFadeStep := g.fadeStep + 1 }) := by
  rw [advanceGhostStep_eq_keep acc p g hg hf]
  constructor
  · show lookup' (stepped acc p g).ghosts p = _
    rw [stepped_ghosts_lookup, if_pos rfl, hg]
    rfl
  · intro v hv
    show lookup' (stepped acc p g).nodes p = _
    rw [stepped_nodes_lookup, if_pos rfl, hv]
    rfl

theorem advanceGhostStep_self_final (acc : TreeState × Bool) (p : RPath)
    (g : GhostEntry) (nd : NodeData)
    (hg : lookup' acc.1.ghosts p = some g)
    (hn : lookup' acc.1.nodes p = some nd) (hname : nameOk p nd)
    (hf : (acc.1.ghostFadeSteps : ℤ) ≤ g.fadeStep + 1) :
    Absent p (advanceGhostStep acc p).1 := by
  rw [advanceGhostStep_eq_final acc p g hg hf]
  have hsn : lookup' (stepped acc p g).nodes p =
      some { nd with ghostFadeStep := g.fadeStep + 1 } := by
    rw [stepped_nodes_lookup, if_pos rfl, hn]
    rfl
  refine ⟨?_, ?_, ?_, ?_⟩
  · show lookup' (fullyRemoveNode (stepped acc p g) p).nodes p = none
    exact fullyRemoveNode_lookup_self _ p _ hsn
  · show p ∉ (fullyRemoveNode (stepped acc p g) p).history
    exact fullyRemoveNode_history_self _ p _ hsn
  · show lookup'
      (eraseKey (fullyRemoveNode (stepped acc p g) p).ghosts p) p = none
    rw [lookup'_eraseKey, if_pos rfl]
  · intro seg hseg pd' hpd'
    have hdet := fullyRemoveNode_detach (stepped acc p g) p _ hsn pd' hpd'
    have hnm : nd.name = seg := hname seg hseg
    rw [← hnm]
    exact hdet

theorem foldl_steps_mid (p : RPath) :
    ∀ (l : List RPath), (∀ q ∈ l, ¬ q <+: p) →
    ∀ acc : TreeState × Bool,
      (l.foldl advanceGhostStep acc).1.ghostFadeSteps =
        acc.1.ghostFadeSteps ∧
      lookup' (l.foldl advanceGhostStep acc).1.ghosts p =
        lookup' acc.1.ghosts p ∧
      (∀ v, lookup' acc.1.nodes p = some v →
        ∃ v', lookup' (l.foldl advanceGhostStep acc).1.nodes p = some v' ∧
          v'.name = v.name) := by
  intro l
  induction l with
  | nil => exact fun _ acc => ⟨rfl, rfl, fun v hv => ⟨v, hv, rfl⟩⟩
  | cons r t ih =>
    intro hl acc
    have hr : ¬ r <+: p := hl r (List.mem_cons_self r t)
    have ht : ∀ q ∈ t, ¬ q <+: p :=
      fun q hq => hl q (List.mem_cons_of_mem r hq)
    rw [List.foldl_cons]
    obtain ⟨hc1, hc2, hc3⟩ := ih ht (advanceGhostStep acc r)
    obtain ⟨ho1, ho2⟩ := advanceGhostStep_other acc r p hr
    refine ⟨?_, ?_, ?_⟩
    · rw [hc1, advanceGhostStep_fadeSteps]
    · rw [hc2, ho1]
    · intro v hv
      obtain ⟨v', hv', hn'⟩ := ho2 v hv
      obtain ⟨v'', hv'', hn''⟩ := hc3 v' hv'
      exact ⟨v'', hv'', hn''.trans hn'⟩

theorem foldl_steps_keys :
    ∀ (l : List RPath) (acc : TreeState × Bool),
      List.Sublist (keys (l.foldl advanceGhostStep acc).1.ghosts)
        (keys acc.1.ghosts) := by
  intro l
  induction l with
  | nil => exact fun acc => List.Sublist.refl _
  | cons r t ih =>
    intro acc
    rw [List.foldl_cons]
    exact List.Sublist.trans (ih (advanceGhostStep acc r))
      (advanceGhostStep_keys acc r)

theorem foldl_steps_fadeSteps :
    ∀ (l : List RPath) (acc : TreeState × Bool),
      (l.foldl advanceGhostStep acc).1.ghostFadeSteps =
        acc.1.ghostFadeSteps := by
  intro l
  induction l with
  | nil => exact fun _ => rfl
  | cons r t ih =>
    intro acc
    rw [List.foldl_cons, ih (advanceGhostStep acc r),
      advanceGhostStep_fadeSteps]

theorem foldl_steps_absent (p : RPath) :
    ∀ (l : List RPath) (acc : TreeState × Bool),
      Absent p acc.1 → Absent p (l.foldl advanceGhostStep acc).1 := by
  intro l
  induction l with
  | nil => exact fun _ h => h
  | cons r t ih =>
    intro acc h
    rw [List.foldl_cons]
    exact ih _ (advanceGhostStep_absent acc r p h)

theorem advanceGhosts_keys (st : TreeState) :
    List.Sublist (keys (advanceGhosts st).1.ghosts) (keys st.ghosts) :=
  foldl_steps_keys (keys st.ghosts) (st, false)

theorem advanceGhosts_fadeSteps (st : TreeState) :
    (advanceGhosts st).1.ghostFadeSteps = st.ghostFadeSteps :=
  foldl_steps_fadeSteps (keys st.ghosts) (st, false)

theorem advanceGhosts_absent (p : RPath) (st : TreeState)
    (h : Absent p st) : Absent p (advanceGhosts st).1 :=
  foldl_steps_absent p (keys st.ghosts) (st, false) h

theorem advanceGhostsN_preserves_absent (p : RPath) :
    ∀ (j : ℕ) (st : TreeState), Absent p st →
      Absent p (advanceGhostsN j st) := by
  intro j
  induction j with
  | zero => exact fun st h => h
  | succ jj ih =>
    intro st h
    show Absent p (advanceGhostsN jj (advanceGhosts st).1)
    exact ih _ (advanceGhosts_absent p st h)

theorem ghost_keys_split (st : TreeState) (p : RPath) (g : GhostEntry)
    (hg : lookup' st.ghosts p = some g)
    (hanc : ∀ r ∈ keys st.ghosts, r <+: p → r = p)
    (hnd : (keys st.ghosts).Nodup) :
    ∃ l1 l2, keys st.ghosts = l1 ++ p :: l2 ∧
      (∀ q ∈ l1, ¬ q <+: p) ∧ (∀ q ∈ l2, ¬ q <+: p) := by
  have hmem : p ∈ keys st.ghosts := mem_keys_of_lookup' st.ghosts p g hg
  obtain ⟨l1, l2, hsplit⟩ := List.append_of_mem hmem
  refine ⟨l1, l2, hsplit, ?_, ?_⟩
  · intro q hq hqp
    have hqk : q ∈ keys st.ghosts :=
      hsplit ▸ List.mem_append.mpr (Or.inl hq)
    have hqe : q = p := hanc q hqk hqp
    have hnd' := hsplit ▸ hnd
    rw [List.nodup_append] at hnd'
    exact hnd'.2.2 hq (hqe ▸ List.mem_cons_self p l2)
  · intro q hq hqp
    have hqk : q ∈ keys st.ghosts :=
      hsplit ▸ List.mem_append.mpr (Or.inr (List.mem_cons_of_mem p hq))
    have hqe : q = p := hanc q hqk hqp
    have hnd' := hsplit ▸ hnd
    rw [List.nodup_append] at hnd'
    exact (List.nodup_cons.mp hnd'.2.1).1 (hqe ▸ hq)

theorem advanceGhosts_maintain (st : TreeState) (p : RPath) (g : GhostEntry)
    (hg : lookup' st.ghosts p = some g)
    (hn : ∃ nd, lookup' st.nodes p = some nd ∧ nameOk p nd)
    (hanc : ∀ r ∈ keys st.ghosts, r <+: p → r = p)
    (hnd : (keys st.ghosts).Nodup)
    (hlt : ¬ (st.ghostFadeSteps : ℤ) ≤ g.fadeStep + 1) :
    lookup' (advanceGhosts st).1.ghosts p =
      some { g with fadeStep := g.fadeStep + 1 } ∧
    (∃ nd', lookup' (advanceGhosts st).1.nodes p = some nd' ∧
      nameOk p nd') := by
  obtain ⟨nd, hnd0, hname⟩ := hn
  obtain ⟨l1, l2, hsplit, h1np, h2np⟩ := ghost_keys_split st p g hg hanc hnd
  have hun : advanceGhosts st =
      l2.foldl advanceGhostStep
        (advanceGhostStep (l1.foldl advanceGhostStep (st, false)) p) := by
    rw [advanceGhosts, hsplit, List.foldl_append, List.foldl_cons]
  obtain ⟨hm1, hm2, hm3⟩ := foldl_steps_mid p l1 h1np (st, false)
  obtain ⟨nd1, hnd1, hnm1⟩ := hm3 nd hnd0
  have hg1 : lookup' (l1.foldl advanceGhostStep (st, false)).1.ghosts p =
      some g := by rw [hm2]; exact hg
  have hlt1 : ¬ ((l1.foldl advanceGhostStep (st, false)).1.ghostFadeSteps :
      ℤ) ≤ g.fadeStep + 1 := by rw [hm1]; exact hlt
  obtain ⟨hk1, hk2⟩ :=
    advanceGhostStep_self_keep (l1.foldl advanceGhostStep (st, false)) p g
      hg1 hlt1
  have hk2' := hk2 nd1 hnd1
  obtain ⟨hf1, hf2, hf3⟩ := foldl_steps_mid p l2 h2np
    (advanceGhostStep (l1.foldl advanceGhostStep (st, false)) p)
  obtain ⟨nd2, hnd2, hnm2⟩ := hf3 _ hk2'
  refine ⟨?_, ⟨nd2, ?_, ?_⟩⟩
  · rw [hun, hf2, hk1]
  · rw [hun]
    exact hnd2
  · intro seg hseg
    rw [hnm2]
    show nd1.name = seg
    rw [hnm1]
    exact hname seg hseg

theorem advanceGhosts_final (st : TreeState) (p : RPath) (g : GhostEntry)
    (hg : lookup' st.ghosts p = some g)
    (hn : ∃ nd, lookup' st.nodes p = some nd ∧ nameOk p nd)
    (hanc : ∀ r ∈ keys st.ghosts, r <+: p → r = p)
    (hnd : (keys st.ghosts).Nodup)
    (hge : (st.ghostFadeSteps : ℤ) ≤ g.fadeStep + 1) :
    Absent p (advanceGhosts st).1 := by
  obtain ⟨nd, hnd0, hname⟩ := hn
  obtain ⟨l1, l2, hsplit, h1np, h2np⟩ := ghost_keys_split st p g hg hanc hnd
  have hun : advanceGhosts st =
      l2.foldl advanceGhostStep
        (advanceGhostStep (l1.foldl advanceGhostStep (st, false)) p) := by
    rw [advanceGhosts, hsplit, List.foldl_append, List.foldl_cons]
  obtain ⟨hm1, hm2, hm3⟩ := foldl_steps_mid p l1 h1np (st, false)
  obtain ⟨nd1, hnd1, hnm1⟩ := hm3 nd hnd0
  have hg1 : lookup' (l1.foldl advanceGhostStep (st, false)).1.ghosts p =
      some g := by rw [hm2]; exact hg
  have hge1 : ((l1.foldl advanceGhostStep (st, false)).1.ghostFadeSteps :
      ℤ) ≤ g.fadeStep + 1 := by rw [hm1]; exact hge
  have hname1 : nameOk p nd1 := by
    intro seg hseg
    rw [hnm1]
    exact hname seg hseg
  have habs := advanceGhostStep_self_final
    (l1.foldl advanceGhostStep (st, false)) p g nd1 hg1 hnd1 hname1 hge1
  rw [hun]
  exact foldl_steps_absent p l2 _ habs

theorem advanceGhostsN_absent (p : RPath) :
    ∀ (j : ℕ) (st : TreeState) (g : GhostEntry),
      lookup' st.ghosts p = some g →
      (∃ nd, lookup' st.nodes p = some nd ∧ nameOk p nd) →
      (∀ r ∈ keys st.ghosts, r <+: p → r = p) →
      (keys st.ghosts).Nodup →
      (st.ghostFadeSteps : ℤ) ≤ g.fadeStep + j →
      1 ≤ j →
      Absent p (advanceGhostsN j st) := by
  intro j
  induction j with
  | zero =>
    intro st g _ _ _ _ _ hj
    exact absurd hj (by omega)
  | succ jj ih =>
    intro st g hg hn hanc hnd hcount _
    show Absent p (advanceGhostsN jj (advanceGhosts st).1)
    by_cases hfin : (st.ghostFadeSteps : ℤ) ≤ g.fadeStep + 1
    · exact advanceGhostsN_preserves_absent p jj _
        (advanceGhosts_final st p g hg hn hanc hnd hfin)
    · obtain ⟨hg', hn'⟩ := advanceGhosts_maintain st p g hg hn hanc hnd hfin
      have hanc' : ∀ r ∈ keys (advanceGhosts st).1.ghosts, r <+: p →
          r = p :=
        fun r hr => hanc r ((advanceGhosts_keys st).subset hr)
      have hnd' : (keys (advanceGhosts st).1.ghosts).Nodup :=
        hnd.sublist (advanceGhosts_keys st)
      have hjj : 1 ≤ jj := by
        push_cast at hcount
        omega
      refine ih (advanceGhosts st).1 { g with fadeStep := g.fadeStep + 1 }
        hg' hn' hanc' hnd' ?_ hjj
      rw [advanceGhosts_fadeSteps]
      show (st.ghostFadeSteps : ℤ) ≤ g.fadeStep + 1 + jj
      push_cast at hcount
      omega

theorem foldl_updateAt_not_mem (L : List RPath)
    (m : List (RPath × NodeData)) (f : NodeData → NodeData) (p : RPath)
    (hp : p ∉ L) :
    lookup' (L.foldl (fun a r => updateAt a r f) m) p = lookup' m p := by
  induction L generalizing m with
  | nil => rfl
  | cons r t ih =>
    rw [List.foldl_cons, ih _ (fun h => hp (List.mem_cons_of_mem r h)),
      lookup'_updateAt,
      if_neg (fun h : p = r => hp (by rw [h]; exact List.mem_cons_self r t))]

theorem removeNode_ghosts_eq (s : TreeState) (p : RPath) (et : EventType)
    (now : ℤ) (nd : NodeData) (hp : lookup' s.nodes p = some nd) :
    (removeNode s p et now).ghosts =
      mapSet s.ghosts p { deathTime := now, fadeStep := 0 } := by
  unfold removeNode
  rw [hp]
  by_cases hdir : nd.type = NodeType.directory <;>
    simp [hdir, markChildrenAsGhosts, addToHistory, propagateToParents]

theorem removeNode_fadeSteps (s : TreeState) (p : RPath) (et : EventType)
    (now : ℤ) :
    (removeNode s p et now).ghostFadeSteps = s.ghostFadeSteps := by
  unfold removeNode
  rcases hp : lookup' s.nodes p with _ | nd
  · rfl
  · by_cases hdir : nd.type = NodeType.directory <;>
      simp [hdir, markChildrenAsGhosts, addToHistory, propagateToParents]

theorem removeNode_nodes_at (s : TreeState) (p : RPath) (et : EventType)
    (now : ℤ) (nd : NodeData) (hp : lookup' s.nodes p = some nd) :
    lookup' (removeNode s p et now).nodes p =
      some (ghostMark et now nd) := by
  have hpanc : p ∉ ancestorPaths p := by
    rw [ancestorPaths_mem]
    simp
  have hpmark : ∀ nodes fuel, p ∉ ghostMarkPaths nodes fuel p :=
    fun nodes fuel hm => by
      have := ghostMarkPaths_length nodes fuel p p hm
      omega
  unfold removeNode
  rw [hp]
  by_cases hdir : nd.type = NodeType.directory <;>
    simp only [hdir, if_pos, if_neg, if_true, if_false, Bool.false_eq_true,
      markChildrenAsGhosts, addToHistory, propagateToParents, ite_true,
      ite_false, reduceIte] <;>
    rw [foldl_updateAt_not_mem _ _ _ p hpanc] <;>
    [rw [foldl_updateAt_not_mem _ _ _ p (hpmark _ _)]; skip] <;>
    rw [lookup'_updateAt, if_pos rfl, hp] <;>
    rfl

/-- C5 as stated is false: removing `a/f` while its parent directory `a` is
already a fading ghost, then advancing ghosts exactly `ghostFadeSteps = 3`
times, leaves `a/f` still recorded in `history`.  The parent's ghost
finalizes first and erases the node entry for `a/f`; when `a/f`'s own ghost
later reaches the fade limit, `fullyRemoveNode` returns early on the missing
node and never filters `history`. -/
theorem removeNode_ghost_lifecycle_cex :
    lookup' cexSt5.nodes ["a", "f"] = some (fileND "f") ∧
    isInHistory
      (advanceGhostsN cexSt5.ghostFadeSteps
        (removeNode cexSt5 ["a", "f"] .unlink 5000)) ["a", "f"] = true := by
  decide

/-- C5, amended: if `p` is present, its stored `name` is its basename, no
proper ancestor of `p` is itself a registered ghost, the ghost keys are
distinct, and at least one fade step is configured, then `removeNode p`
followed by exactly `ghostFadeSteps` calls to `advanceGhosts` leaves `p`
absent from the node map, absent from `history`, absent from `ghosts`, and
removed from its parent's `childKeys`. -/
theorem removeNode_ghost_lifecycle (s : TreeState) (p : RPath)
    (et : EventType) (now : ℤ) (nd : NodeData)
    (hp : lookup' s.nodes p = some nd) (hname : nameOk p nd)
    (hanc : ∀ r ∈ keys s.ghosts, r <+: p → r = p)
    (hnd : (keys s.ghosts).Nodup)
    (hsteps : 1 ≤ s.ghostFadeSteps) :
    lookup'
      (advanceGhostsN s.ghostFadeSteps (removeNode s p et now)).nodes p =
      none ∧
    p ∉ (advanceGhostsN s.ghostFadeSteps (removeNode s p et now)).history ∧
    lookup'
      (advanceGhostsN s.ghostFadeSteps (removeNode s p et now)).ghosts p =
      none ∧
    (∀ seg, p.getLast? = some seg → ∀ pd,
      lookup' (advanceGhostsN s.ghostFadeSteps
        (removeNode s p et now)).nodes p.dropLast = some pd →
      seg ∉ pd.childKeys) := by
  have hge : lookup' (removeNode s p et now).ghosts p =
      some { deathTime := now, fadeStep := 0 } := by
    rw [removeNode_ghosts_eq s p et now nd hp, lookup'_mapSet, if_pos rfl]
  have hne : ∃ nd', lookup' (removeNode s p et now).nodes p = some nd' ∧
      nameOk p nd' :=
    ⟨ghostMark et now nd, removeNode_nodes_at s p et now nd hp,
      fun seg hseg => hname seg hseg⟩
  have hanc' : ∀ r ∈ keys (removeNode s p et now).ghosts, r <+: p →
      r = p := by
    intro r hr hpre
    rw [removeNode_ghosts_eq s p et now nd hp] at hr
    rcases mem_keys_mapSet s.ghosts p _ r hr with h | h
    · exact hanc r h hpre
    · exact h
  have hnd' : (keys (removeNode s p et now).ghosts).Nodup := by
    rw [removeNode_ghosts_eq s p et now nd hp]
    exact nodup_keys_mapSet s.ghosts p _ hnd
  have hcount : ((removeNode s p et now).ghostFadeSteps : ℤ) ≤
      (0 : ℤ) + s.ghostFadeSteps := by
    rw [removeNode_fadeSteps]
    omega
  have habs := advanceGhostsN_absent p s.ghostFadeSteps
    (removeNode s p et now) { deathTime := now, fadeStep := 0 }
    hge hne hanc' hnd' hcount hsteps
  exact ⟨habs.1, habs.2.1, habs.2.2.1, habs.2.2.2⟩

/-- Witness for the amended C5 at a concrete two-node state. -/
theorem removeNode_ghost_lifecycle_witness :
    lookup' wSt5.nodes ["f"] = some (fileND "f") ∧
    1 ≤ wSt5.ghostFadeSteps ∧
    lookup'
      (advanceGhostsN wSt5.ghostFadeSteps
        (removeNode wSt5 ["f"] .unlink 100)).nodes ["f"] = none ∧
    lookup'
      (advanceGhostsN wSt5.ghostFadeSteps
        (removeNode wSt5 ["f"] .unlink 100)).ghosts ["f"] = none ∧
    ["f"] ∉ (advanceGhostsN wSt5.ghostFadeSteps
      (removeNode wSt5 ["f"] .unlink 100)).history := by
  have h := removeNode_ghost_lifecycle wSt5 ["f"] .unlink 100 (fileND "f")
    (by decide)
    (by
      intro seg hseg
      simp only [List.getLast?] at hseg
      cases hseg
      rfl)
    (by
      intro r hr
      simp [wSt5, keys] at hr)
    (by simp [wSt5, keys])
    (by decide)
  exact ⟨by decide, by decide, h.1, h.2.2.1, h.2.1⟩

end TState

end Fstop
